import Mathlib

/-!
Verification of the precinct adjacency graph construction and
connectivity-repair algorithm of `precinctGraph.py`.

The Python source is shallowly embedded:

* attribute values flowing into JSON serialization are modelled by the
  inductive type `PyVal` (numpy scalars, Python scalars, NaN / NA markers,
  strings, `None`, dicts and lists);
* `sanitize_for_json` / `sanitize_obj` are direct transcriptions of the
  functions of the same names (lines 37-92);
* the networkx graph is modelled by `Graph` (node list in insertion order,
  edge list in insertion order, at most one edge per unordered pair —
  `Graph.addEdge` replaces the stored edge when the unordered pair is
  already present, exactly like `nx.Graph.add_edge`);
* shapely / geopandas geometry predicates are external collaborators and are
  abstracted by a `GeoOracle` supplying, per pair of dataframe positions,
  the results of `intersects`, boundary-intersection length, distance and
  buffered-boundary-intersection length, plus the spatial-index candidate
  query; representative points are abstracted by a partial map
  `rep : String → Option Point`, `rep a = none` modelling
  `a not in centroids.index` (no usable representative point);
* distances between representative points are compared through the squared
  Euclidean distance `dist2` (a strictly monotone encoding of the distance
  used by the code, so minima and strict comparisons are preserved);
* `connect_components_to_largest` (lines 97-158) and
  `build_precinct_adjacency_graph` (lines 163-325) are transcribed
  step by step; Python exceptions (pandas `KeyError` on `.loc` with a
  missing label, `idxmin` on an empty series, `float(None)`,
  `comps_sorted[0]` on an empty list) are modelled by `none` / `.error`
  results.
-/

/-- A Python attribute value as it appears in the node/edge data handed to
`json.dump`: numpy scalars, Python scalars, NaN and pandas-NA markers,
strings, `None`, dicts and lists. -/
inductive PyVal where
  | npBool (b : Bool)
  | pyBool (b : Bool)
  | npInt (n : Int)
  | pyInt (n : Int)
  | npFloat (q : ℚ)
  | npNan
  | pyFloat (q : ℚ)
  | pyNan
  | str (s : String)
  | pyNone
  | pdNA
  | dict (entries : List (String × PyVal))
  | list (items : List PyVal)

/-- Transcription of `sanitize_for_json` (precinctGraph.py lines 37-70).
Step 0 converts numpy/Python booleans to Python booleans; step 1 converts
numpy integers and floats (NaN to `None`); step 2 converts anything
`pd.isna` recognises (`float('nan')`, `None`, `pd.NA` / `NaT`) to `None`;
everything else (including dicts and lists, where `pd.isna` either returns
`False` or raises and the exception is swallowed) is returned unchanged. -/
def sanitize_for_json : PyVal → PyVal
  | .npBool b => .pyBool b
  | .pyBool b => .pyBool b
  | .npInt n => .pyInt n
  | .npNan => .pyNone
  | .npFloat q => .pyFloat q
  | .pyNan => .pyNone
  | .pyNone => .pyNone
  | .pdNA => .pyNone
  | x => x

/-- Transcription of `sanitize_obj` (precinctGraph.py lines 73-92):
recursively sanitize a nested dict/list structure by applying
`sanitize_for_json` to every leaf. -/
def sanitize_obj : PyVal → PyVal
  | .dict kvs => .dict (kvs.attach.map (fun kv => (kv.1.1, sanitize_obj kv.1.2)))
  | .list xs => .list (xs.attach.map (fun x => sanitize_obj x.1))
  | x => sanitize_for_json x
  decreasing_by
  · simp only [PyVal.dict.sizeOf_spec]
    have h1 : sizeOf kv.1 < sizeOf kvs := List.sizeOf_lt_of_mem kv.2
    have h2 : sizeOf kv.1.2 < sizeOf kv.1 := by
      obtain ⟨a, b⟩ := kv.1
      simp only [Prod.mk.sizeOf_spec]
      omega
    omega
  · simp only [PyVal.list.sizeOf_spec]
    have h1 : sizeOf x.1 < sizeOf xs := List.sizeOf_lt_of_mem x.2
    omega

/-- A value is JSON-safe when every leaf is a plain Python numeric, string,
boolean or `None` — no numpy scalars, no NaN, no pandas NA. These are
exactly the values `json.dump` serializes to JSON numbers, strings,
booleans and `null`. -/
def jsonSafe : PyVal → Bool
  | .npBool _ => false
  | .pyBool _ => true
  | .npInt _ => false
  | .pyInt _ => true
  | .npFloat _ => false
  | .npNan => false
  | .pyFloat _ => true
  | .pyNan => false
  | .str _ => true
  | .pyNone => true
  | .pdNA => false
  | .dict kvs => kvs.attach.all (fun kv => jsonSafe kv.1.2)
  | .list xs => xs.attach.all (fun x => jsonSafe x.1)
  decreasing_by
  · simp only [PyVal.dict.sizeOf_spec]
    have h1 : sizeOf kv.1 < sizeOf kvs := List.sizeOf_lt_of_mem kv.2
    have h2 : sizeOf kv.1.2 < sizeOf kv.1 := by
      obtain ⟨a, b⟩ := kv.1
      simp only [Prod.mk.sizeOf_spec]
      omega
    omega
  · simp only [PyVal.list.sizeOf_spec]
    have h1 : sizeOf x.1 < sizeOf xs := List.sizeOf_lt_of_mem x.2
    omega

/-- Leaf values that `sanitize_for_json` converts to `None`: a NaN float
(the numpy `np.isnan` branch at precinctGraph.py line 60, or a plain
Python `float('nan')`), `None` itself, and pandas NA / NaT — exactly
the inputs for which lines 60-68 return `None` (the `pd.isna` test at
line 66 recognises `None`, `float('nan')`, `pd.NA` and `pd.NaT`). These
are the not-a-number / undefined attribute values. -/
def isNaLike : PyVal → Bool
  | .npNan => true
  | .pyNan => true
  | .pyNone => true
  | .pdNA => true
  | _ => false

/-- Subterm of a nested dict/list value at a position path: step `i`
descends into the value of the `i`-th dict entry (in insertion order) or
into the `i`-th list item; `none` when the path leaves the structure.
This addresses a value at any nesting depth of the dict/list tree. -/
def pySub : PyVal → List Nat → Option PyVal
  | v, [] => some v
  | .dict kvs, i :: p =>
    match kvs[i]? with
    | some kv => pySub kv.2 p
    | none => none
  | .list xs, i :: p =>
    match xs[i]? with
    | some x => pySub x p
    | none => none
  | _, _ :: _ => none

/-- The tier of an adjacency edge: `strict` shared-boundary adjacency
(`tolerance=0` in the source), `tolerance` proximity adjacency
(`tolerance=1`), or a synthetic `bridge` edge (`bridge=1`). -/
inductive Tier where
  | strict
  | tolerance
  | bridge
  deriving DecidableEq

/-- One undirected edge record of the networkx graph: the two endpoint node
ids in the order they were passed to `add_edge`, the tier, and the numeric
evidence (`shared_m` for strict/tolerance edges, the representative-point
distance — here its squared-Euclidean encoding — for bridge edges). -/
structure Edge where
  a : String
  b : String
  tier : Tier
  w : ℚ
  deriving DecidableEq

/-- Two edge records cover the same unordered pair of node ids. -/
def samePair (e f : Edge) : Bool :=
  (e.a == f.a && e.b == f.b) || (e.a == f.b && e.b == f.a)

/-- The networkx graph: nodes in insertion order, edge records in insertion
order, at most one record per unordered pair. -/
structure Graph where
  nodes : List String
  edges : List Edge
  deriving DecidableEq

/-- Model of `nx.Graph.add_node`: a new node is appended, an existing node is left
in place (attribute update only, which we do not track). -/
def Graph.addNode (G : Graph) (x : String) : Graph :=
  if x ∈ G.nodes then G else { G with nodes := G.nodes ++ [x] }

/-- Model of `nx.Graph.add_edge`: both endpoints are added as nodes if missing; if an
edge record for the same unordered pair exists it is replaced by the new
record, otherwise the new record is appended. -/
def Graph.addEdge (G : Graph) (e : Edge) : Graph :=
  { nodes := ((G.addNode e.a).addNode e.b).nodes,
    edges :=
      if G.edges.any (fun f => samePair f e) then
        G.edges.map (fun f => if samePair f e then e else f)
      else
        G.edges ++ [e] }

/-- Nodes `x` and `y` are adjacent: some edge record joins them (in either
orientation). -/
def adjB (E : List Edge) (x y : String) : Bool :=
  E.any (fun e => (e.a == x && e.b == y) || (e.a == y && e.b == x))

/-- Reachability along edges: reflexive-transitive closure of adjacency.
This is the specification of "same connected component". -/
def Reach (E : List Edge) (x y : String) : Prop :=
  Relation.ReflTransGen (fun u v => adjB E u v = true) x y

/-- One breadth step of the connected-component computation: append every
node of the graph that is adjacent to the current set but not yet in it. -/
def closeStep (nodes : List String) (E : List Edge) (S : List String) : List String :=
  S ++ nodes.filter (fun y => !(S.contains y) && S.any (fun x => adjB E x y))

/-- The connected component of `x`: iterate `closeStep` as many times as
there are nodes (enough to reach the fixpoint). Models one element of
`nx.connected_components(G)`. -/
def compOf (nodes : List String) (E : List Edge) (x : String) : List String :=
  (closeStep nodes E)^[nodes.length] [x]

/-- Worker for `componentsOf`: walk the remaining nodes in order, emitting
the component of each node not yet visited. -/
def compsGo (nodes : List String) (E : List Edge) : List String → List String → List (List String)
  | [], _ => []
  | n :: rest, visited =>
    if visited.contains n then compsGo nodes E rest visited
    else compOf nodes E n :: compsGo nodes E rest (visited ++ compOf nodes E n)

/-- Model of `list(nx.connected_components(G))`: the connected components, listed in
order of their first node in graph insertion order. -/
def componentsOf (nodes : List String) (E : List Edge) : List (List String) :=
  compsGo nodes E nodes []

/-- Insert a component into a size-descending list, after all components of
greater or equal size (matching the stability of Python's
`sorted(comps, key=len, reverse=True)`). -/
def insertByLenDesc (x : List String) : List (List String) → List (List String)
  | [] => [x]
  | y :: ys => if x.length ≤ y.length then y :: insertByLenDesc x ys else x :: y :: ys

/-- Stable sort by descending component size:
`sorted(comps, key=len, reverse=True)`. -/
def sortByLenDesc (l : List (List String)) : List (List String) :=
  l.foldl (fun acc x => insertByLenDesc x acc) []

/-- Every edge record joins two listed nodes (an invariant of graphs built
through `Graph.addEdge`). -/
def Wellformed (G : Graph) : Prop :=
  ∀ e ∈ G.edges, e.a ∈ G.nodes ∧ e.b ∈ G.nodes

/-- A representative point in the projected CRS (coordinates embedded as
exact integer-scaled values of the metric CRS). -/
def Point : Type := ℤ × ℤ

/-- Squared Euclidean distance between representative points. The source
compares true Euclidean distances; squaring is strictly monotone on
non-negative reals, so every minimum, argmin and strict comparison in the
repair algorithm is preserved exactly. -/
def dist2 (p q : Point) : ℤ :=
  (p.1 - q.1) * (p.1 - q.1) + (p.2 - q.2) * (p.2 - q.2)

/-- Model of `centroids.loc[largest_list]`: look up the representative point of every
listed node; pandas raises `KeyError` (modelled `none`) if any label is
missing from the index. -/
def lookupAll (rep : String → Option Point) : List String → Option (List (String × Point))
  | [] => some []
  | b :: rest =>
    match rep b with
    | none => none
    | some p =>
      match lookupAll rep rest with
      | none => none
      | some tl => some ((b, p) :: tl)

/-- Model of `Series.idxmin` paired with `Series.min`: the first label attaining the minimum
value, with the value; `none` on an empty series (where pandas raises). -/
def firstMin : List (String × ℤ) → Option (String × ℤ)
  | [] => none
  | (b, d) :: rest =>
    match firstMin rest with
    | none => some (b, d)
    | some (c, d') => if d ≤ d' then some (b, d) else some (c, d')

/-- Step 2 of `connect_components_to_largest` (lines 133-143): scan the
pending component `comp_list` in order; for each node `a` present in the
centroid index, compute its distance to every node of `largest_list` and
keep the globally best `(dist, a, b)`, replacing the current best only on a
strictly smaller distance. `.error` models the pandas `KeyError` /
empty-series exceptions. -/
def bestGo (rep : String → Option Point) (largestList : List String) :
    List String → Option (ℤ × String × String) → Except Unit (Option (ℤ × String × String))
  | [], best => .ok best
  | a :: rest, best =>
    match rep a with
    | none => bestGo rep largestList rest best
    | some ca =>
      match lookupAll rep largestList with
      | none => .error ()
      | some pts =>
        match firstMin (pts.map (fun bp => (bp.1, dist2 ca bp.2))) with
        | none => .error ()
        | some (b, d) =>
          match best with
          | none => bestGo rep largestList rest (some (d, a, b))
          | some (d0, a0, b0) =>
            if d < d0 then bestGo rep largestList rest (some (d, a, b))
            else bestGo rep largestList rest (some (d0, a0, b0))

/-- The loop over pending components (lines 128-156): find the best bridge
pair for each component; if none of its nodes has a representative point
(`best is None`) the component is silently skipped; otherwise the bridge
edge is added, the counter incremented, and only the chosen endpoint `a`
is appended to the accumulating largest component. Returns the final
graph, the number of bridge edges added, and the final `largest_list`. -/
def connectLoop (rep : String → Option Point) :
    List (List String) → List String → Graph → Nat →
    Option (Graph × Nat × List String)
  | [], largestList, G, added => some (G, added, largestList)
  | comp :: rest, largestList, G, added =>
    match bestGo rep largestList comp none with
    | .error _ => none
    | .ok none => connectLoop rep rest largestList G added
    | .ok (some (d, a, b)) =>
      connectLoop rep rest (largestList ++ [a])
        (G.addEdge { a := a, b := b, tier := .bridge, w := (d : ℚ) }) (added + 1)

/-- Transcription of `connect_components_to_largest` (lines 97-158):
compute components, return unchanged if at most one, else sort by
descending size, designate the largest as the accumulator and run the
bridge loop over the rest. `none` models an uncaught pandas exception. -/
def connect_components_to_largest (rep : String → Option Point) (G : Graph) :
    Option (Graph × Nat × List String) :=
  let comps := componentsOf G.nodes G.edges
  if comps.length ≤ 1 then some (G, 0, [])
  else
    match sortByLenDesc comps with
    | [] => some (G, 0, [])
    | largest :: others => connectLoop rep others largest G 0

/-- Conversion factor `FEET_TO_METERS = 0.3048` (line 32). -/
def FEET_TO_METERS : ℚ := 3048 / 10000

/-- One row of the projected GeoDataFrame: the stringified precinct id
(`str(row[precinct_id_col])`) together with its (opaque) attributes. The
geometry itself lives behind the `GeoOracle`. -/
structure Region where
  id : String

/-- The geometry library (shapely/geopandas) as an external collaborator,
indexed by dataframe position:
`intersects i j` = `geom_i.intersects(geom_j)`;
`boundLen i j` = `boundaries.iloc[i].intersection(boundaries.iloc[j]).length`;
`dist i j` = `geom_i.distance(geom_j)`;
`tolLen i j` = `buffered.iloc[i].boundary.intersection(buffered.iloc[j].boundary.buffer(EPS_M)).length`;
`cand i` = `list(sindex.intersection(buffered.iloc[i].bounds))`.
`cand` does not depend on `min_shared_boundary_feet`: the buffering uses
the fixed `tol_m` (lines 222-231). -/
structure GeoOracle where
  intersects : Nat → Nat → Bool
  boundLen : Nat → Nat → ℚ
  dist : Nat → Nat → ℚ
  tolLen : Nat → Nat → ℚ
  cand : Nat → List Nat

/-- The per-pair classification of Step 7 (lines 255-282). Case 1: the
geometries intersect — emit a strict edge iff the boundary-intersection
length reaches `min_len_m` (then `continue`, so no tolerance test).
Case 2: within `tol_m` — emit a tolerance edge iff the fuzzed buffered
boundary overlap reaches `min_len_m`. Otherwise no edge. -/
def classifyPair (geo : GeoOracle) (minLenM tolM : ℚ) (idI idJ : String) (i j : Nat) :
    Option Edge :=
  if geo.intersects i j then
    if minLenM ≤ geo.boundLen i j then
      some { a := idI, b := idJ, tier := .strict, w := geo.boundLen i j }
    else none
  else if geo.dist i j ≤ tolM then
    if minLenM ≤ geo.tolLen i j then
      some { a := idI, b := idJ, tier := .tolerance, w := geo.tolLen i j }
    else none
  else none

/-- The decision taken for dataframe positions `(i, j)` in the inner loop:
skipped when `j <= i` or when a position is out of range. -/
def pairDecision (gdf : List Region) (geo : GeoOracle) (minLenM tolM : ℚ) (i j : Nat) :
    Option Edge :=
  if j ≤ i then none
  else
    match gdf[i]?, gdf[j]? with
    | some ri, some rj => classifyPair geo minLenM tolM ri.id rj.id i j
    | _, _ => none

/-- Apply one inner-loop iteration to the graph. -/
def processPair (gdf : List Region) (geo : GeoOracle) (minLenM tolM : ℚ)
    (G : Graph) (i j : Nat) : Graph :=
  match pairDecision gdf geo minLenM tolM i j with
  | some e => G.addEdge e
  | none => G

/-- Step 3 (lines 213-217): add every row's id as a node. -/
def initNodes (gdf : List Region) : Graph :=
  gdf.foldl (fun G r => G.addNode r.id) { nodes := [], edges := [] }

/-- Steps 3-7 (lines 213-282): the graph after node insertion and the
double loop over spatial-index candidate pairs. -/
def classifierGraph (gdf : List Region) (geo : GeoOracle) (minLenM tolM : ℚ) : Graph :=
  (List.range gdf.length).foldl
    (fun G i => (geo.cand i).foldl (fun G j => processPair gdf geo minLenM tolM G i j) G)
    (initNodes gdf)

/-- The inner scan of the post-repair diagnostics (lines 298-305): minimum
centroid distance from a small component to the largest; `.error` models
the pandas `KeyError` on `centroids.loc[largest_list]`. -/
def diagBest (rep : String → Option Point) (largestList : List String) :
    List String → Option ℤ → Except Unit (Option ℤ)
  | [], best => .ok best
  | a :: rest, best =>
    match rep a with
    | none => diagBest rep largestList rest best
    | some ca =>
      match lookupAll rep largestList with
      | none => .error ()
      | some pts =>
        let ds := pts.map (fun bp => dist2 ca bp.2)
        match ds.foldl (fun acc d => some (match acc with | none => d | some m => min m d)) none with
        | none => .error ()
        | some d =>
          diagBest rep largestList rest (some (match best with | none => d | some m => min m d))

/-- Step 10 of the builder (lines 294-306): for up to three non-largest
post-repair components, print the minimum centroid distance to the
largest component. `float(best)` raises `TypeError` when `best` is still
`None` (modelled `false`), and the pandas lookups can raise (`false`). -/
def diagOk (rep : String → Option Point) (largestList : List String) :
    List (List String) → Bool
  | [] => true
  | comp :: rest =>
    match diagBest rep largestList comp none with
    | .error _ => false
    | .ok none => false
    | .ok (some _) => diagOk rep largestList rest

/-- Transcription of `build_precinct_adjacency_graph` (lines 163-325),
with file I/O and the external geometry library abstracted away:
Steps 3-7 build the classifier graph; Step 8 runs
`connect_components_to_largest` when more than one component remains;
Steps 9-10 recompute the components and print diagnostics — notably
`comps_sorted[0]` raises `IndexError` on an empty graph and `float(best)`
raises `TypeError` for a small component with no representative point.
`none` models an uncaught exception (no graph is produced). -/
def build_precinct_adjacency_graph (gdf : List Region) (geo : GeoOracle)
    (min_shared_boundary_feet : ℚ) (rep : String → Option Point) : Option Graph :=
  let min_len_m := min_shared_boundary_feet * FEET_TO_METERS
  let tol_m := 200 * FEET_TO_METERS
  let G := classifierGraph gdf geo min_len_m tol_m
  let step8 :=
    if 1 < (componentsOf G.nodes G.edges).length then
      connect_components_to_largest rep G
    else some (G, 0, [])
  match step8 with
  | none => none
  | some (G2, _, _) =>
    match sortByLenDesc (componentsOf G2.nodes G2.edges) with
    | [] => none
    | largest :: others =>
      if diagOk rep largest (others.take 3) then some G2 else none

/-- A list of bridge edges is a valid chain over an accumulating main list:
each edge's `b` endpoint lies in the main list as it stood when that edge
was added (the original largest component plus the `a` endpoints of the
earlier bridges only). -/
def bridgeChain (L : List String) : List Edge → Prop
  | [] => True
  | e :: bs => e.b ∈ L ∧ bridgeChain (L ++ [e.a]) bs


/-- The sequence of position pairs visited by the double loop of Step 7, in
iteration order. -/
def pairSeq (gdf : List Region) (geo : GeoOracle) : List (Nat × Nat) :=
  (List.range gdf.length).flatMap (fun i => (geo.cand i).map (fun j => (i, j)))


/-- Number of strict-tier edges of a graph. -/
def strictCount (G : Graph) : Nat :=
  G.edges.countP (fun e => e.tier == Tier.strict)

/-- Number of tolerance-tier edges of a graph. -/
def tolCount (G : Graph) : Nat :=
  G.edges.countP (fun e => e.tier == Tier.tolerance)


lemma sanitize_obj_jsonSafe : ∀ v : PyVal, jsonSafe (sanitize_obj v) = true := by
  intro v
  induction v using sanitize_obj.induct with
  | case1 kvs ih =>
    rw [sanitize_obj, jsonSafe, List.all_eq_true]
    intro kv _
    obtain ⟨p, -, hp⟩ := List.mem_map.mp kv.2
    rw [← hp]
    exact ih p
  | case2 xs ih =>
    rw [sanitize_obj, jsonSafe, List.all_eq_true]
    intro x _
    obtain ⟨p, -, hp⟩ := List.mem_map.mp x.2
    rw [← hp]
    exact ih p
  | case3 x h1 h2 =>
    cases x with
    | dict kvs => exact (h1 kvs rfl).elim
    | list xs => exact (h2 xs rfl).elim
    | npBool b => simp [sanitize_obj, sanitize_for_json, jsonSafe]
    | pyBool b => simp [sanitize_obj, sanitize_for_json, jsonSafe]
    | npInt n => simp [sanitize_obj, sanitize_for_json, jsonSafe]
    | pyInt n => simp [sanitize_obj, sanitize_for_json, jsonSafe]
    | npFloat q => simp [sanitize_obj, sanitize_for_json, jsonSafe]
    | npNan => simp [sanitize_obj, sanitize_for_json, jsonSafe]
    | pyFloat q => simp [sanitize_obj, sanitize_for_json, jsonSafe]
    | pyNan => simp [sanitize_obj, sanitize_for_json, jsonSafe]
    | str s => simp [sanitize_obj, sanitize_for_json, jsonSafe]
    | pyNone => simp [sanitize_obj, sanitize_for_json, jsonSafe]
    | pdNA => simp [sanitize_obj, sanitize_for_json, jsonSafe]

lemma sanitize_obj_id_of_jsonSafe : ∀ v : PyVal, jsonSafe v = true → sanitize_obj v = v := by
  intro v
  induction v using sanitize_obj.induct with
  | case1 kvs ih =>
    intro hsafe
    rw [jsonSafe, List.all_eq_true] at hsafe
    rw [sanitize_obj]
    congr 1
    have hfix : ∀ p : {x // x ∈ kvs}, (p.1.1, sanitize_obj p.1.2) = p.1 := by
      intro p
      have hp := hsafe p (List.mem_attach kvs p)
      rw [ih p hp]
    calc kvs.attach.map (fun kv => (kv.1.1, sanitize_obj kv.1.2))
        = kvs.attach.map (fun kv => kv.1) := List.map_congr_left (fun p _ => hfix p)
      _ = kvs := by simp
  | case2 xs ih =>
    intro hsafe
    rw [jsonSafe, List.all_eq_true] at hsafe
    rw [sanitize_obj]
    congr 1
    calc xs.attach.map (fun x => sanitize_obj x.1)
        = xs.attach.map (fun x => x.1) :=
          List.map_congr_left (fun p _ => ih p (hsafe p (List.mem_attach xs p)))
      _ = xs := by simp
  | case3 x h1 h2 =>
    intro hsafe
    cases x with
    | dict kvs => exact (h1 kvs rfl).elim
    | list xs => exact (h2 xs rfl).elim
    | npBool b => simp [jsonSafe] at hsafe
    | pyBool b => simp [sanitize_obj, sanitize_for_json]
    | npInt n => simp [jsonSafe] at hsafe
    | pyInt n => simp [sanitize_obj, sanitize_for_json]
    | npFloat q => simp [jsonSafe] at hsafe
    | npNan => simp [jsonSafe] at hsafe
    | pyFloat q => simp [sanitize_obj, sanitize_for_json]
    | pyNan => simp [jsonSafe] at hsafe
    | str s => simp [sanitize_obj, sanitize_for_json]
    | pyNone => simp [sanitize_obj, sanitize_for_json]
    | pdNA => simp [jsonSafe] at hsafe

lemma sanitize_obj_sub : ∀ (p : List Nat) (v x : PyVal),
    pySub v p = some x → isNaLike x = true →
    pySub (sanitize_obj v) p = some PyVal.pyNone := by
  intro p
  induction p with
  | nil =>
    intro v x hsub hna
    rw [pySub] at hsub
    injection hsub with hx
    subst hx
    cases v with
    | npBool b => simp [isNaLike] at hna
    | pyBool b => simp [isNaLike] at hna
    | npInt n => simp [isNaLike] at hna
    | pyInt n => simp [isNaLike] at hna
    | npFloat q => simp [isNaLike] at hna
    | pyFloat q => simp [isNaLike] at hna
    | str s => simp [isNaLike] at hna
    | dict kvs => simp [isNaLike] at hna
    | list xs => simp [isNaLike] at hna
    | npNan => simp [sanitize_obj, sanitize_for_json, pySub]
    | pyNan => simp [sanitize_obj, sanitize_for_json, pySub]
    | pyNone => simp [sanitize_obj, sanitize_for_json, pySub]
    | pdNA => simp [sanitize_obj, sanitize_for_json, pySub]
  | cons i p' ih =>
    intro v x hsub hna
    cases v with
    | dict kvs =>
      rw [pySub] at hsub
      cases hget : kvs[i]? with
      | none => rw [hget] at hsub; simp at hsub
      | some kv =>
        rw [hget] at hsub
        dsimp only at hsub
        rw [sanitize_obj, pySub]
        have hmapeq : kvs.attach.map (fun kv => (kv.1.1, sanitize_obj kv.1.2))
            = kvs.map (fun kv => (kv.1, sanitize_obj kv.2)) :=
          List.attach_map_val kvs (fun kv => (kv.1, sanitize_obj kv.2))
        rw [hmapeq, List.getElem?_map, hget]
        exact ih kv.2 x hsub hna
    | list xs =>
      rw [pySub] at hsub
      cases hget : xs[i]? with
      | none => rw [hget] at hsub; simp at hsub
      | some y =>
        rw [hget] at hsub
        dsimp only at hsub
        rw [sanitize_obj, pySub]
        have hmapeq : xs.attach.map (fun y => sanitize_obj y.1)
            = xs.map (fun y => sanitize_obj y) :=
          List.attach_map_val xs (fun y => sanitize_obj y)
        rw [hmapeq, List.getElem?_map, hget]
        exact ih y x hsub hna
    | npBool b => exact Option.noConfusion hsub
    | pyBool b => exact Option.noConfusion hsub
    | npInt n => exact Option.noConfusion hsub
    | pyInt n => exact Option.noConfusion hsub
    | npFloat q => exact Option.noConfusion hsub
    | pyFloat q => exact Option.noConfusion hsub
    | str s => exact Option.noConfusion hsub
    | npNan => exact Option.noConfusion hsub
    | pyNan => exact Option.noConfusion hsub
    | pyNone => exact Option.noConfusion hsub
    | pdNA => exact Option.noConfusion hsub

/-- C8: before serialization, `sanitize_obj` converts every not-a-number or
undefined attribute value (NaN floats, `None`, pandas NA/NaT — `isNaLike`)
to `None` (null) at whatever nesting depth of the dict/list structure it
occupies (`pySub` addresses a position by its path), leaving only plain
numeric, string, boolean or null values (`jsonSafe`); values that are
already of those plain kinds pass through unchanged. -/
theorem C8_sanitize_obj_nan_to_null (v : PyVal) :
    (∀ (p : List Nat) (x : PyVal), pySub v p = some x → isNaLike x = true →
      pySub (sanitize_obj v) p = some PyVal.pyNone) ∧
    jsonSafe (sanitize_obj v) = true ∧
    (jsonSafe v = true → sanitize_obj v = v) :=
  ⟨fun p x hsub hna => sanitize_obj_sub p v x hsub hna,
   sanitize_obj_jsonSafe v, sanitize_obj_id_of_jsonSafe v⟩

/-- Witness for C8 at a concrete nested value: in a dict holding a NaN, a
numpy integer and a nested list with a pandas NA, the pandas NA sitting at
path [2, 0] (inside the nested list) is converted to `None` at that same
position, the whole sanitized value is JSON-safe, and an already-safe
value passes through unchanged. -/
theorem C8_witness :
    pySub (PyVal.dict [("a", .npNan), ("b", .npInt 3),
      ("c", .list [.pdNA, .str "x"])]) [2, 0] = some PyVal.pdNA ∧
    isNaLike PyVal.pdNA = true ∧
    pySub (sanitize_obj (PyVal.dict [("a", .npNan), ("b", .npInt 3),
      ("c", .list [.pdNA, .str "x"])])) [2, 0] = some PyVal.pyNone ∧
    jsonSafe (sanitize_obj (PyVal.dict [("a", .npNan), ("b", .npInt 3),
      ("c", .list [.pdNA, .str "x"])])) = true ∧
    (jsonSafe (PyVal.list [.pyInt 1, .pyNone]) = true →
      sanitize_obj (PyVal.list [.pyInt 1, .pyNone]) = .list [.pyInt 1, .pyNone]) :=
  ⟨rfl, rfl,
   (C8_sanitize_obj_nan_to_null (PyVal.dict [("a", .npNan), ("b", .npInt 3),
      ("c", .list [.pdNA, .str "x"])])).1 [2, 0] PyVal.pdNA rfl rfl,
   (C8_sanitize_obj_nan_to_null _).2.1,
   (C8_sanitize_obj_nan_to_null (PyVal.list [.pyInt 1, .pyNone])).2.2⟩

/-- C10: the attribute-sanitization function is idempotent — applying
`sanitize_obj` to an already-sanitized structure (including nested dicts
and lists) returns it unchanged. -/
theorem C10_sanitize_obj_idempotent (v : PyVal) :
    sanitize_obj (sanitize_obj v) = sanitize_obj v :=
  sanitize_obj_id_of_jsonSafe _ (sanitize_obj_jsonSafe v)


lemma adjB_symm {E : List Edge} {x y : String} (h : adjB E x y = true) : adjB E y x = true := by
  rw [adjB, List.any_eq_true] at h ⊢
  obtain ⟨e, he, hcond⟩ := h
  refine ⟨e, he, ?_⟩
  cases Bool.or_eq_true_iff.mp hcond with
  | inl h1 => exact Bool.or_eq_true_iff.mpr (Or.inr h1)
  | inr h1 => exact Bool.or_eq_true_iff.mpr (Or.inl h1)

lemma adjB_mem {E : List Edge} {x y : String} (h : adjB E x y = true) :
    ∃ e ∈ E, (e.a = x ∧ e.b = y) ∨ (e.a = y ∧ e.b = x) := by
  rw [adjB, List.any_eq_true] at h
  obtain ⟨e, he, hcond⟩ := h
  refine ⟨e, he, ?_⟩
  rcases Bool.or_eq_true_iff.mp hcond with h1 | h1 <;>
    rcases Bool.and_eq_true_iff.mp h1 with ⟨ha, hb⟩
  · exact Or.inl ⟨eq_of_beq ha, eq_of_beq hb⟩
  · exact Or.inr ⟨eq_of_beq ha, eq_of_beq hb⟩

lemma adjB_of_mem {E : List Edge} {e : Edge} (he : e ∈ E) : adjB E e.a e.b = true := by
  rw [adjB, List.any_eq_true]
  exact ⟨e, he, by simp⟩

lemma Reach.refl {E : List Edge} (x : String) : Reach E x x :=
  Relation.ReflTransGen.refl

lemma Reach.trans {E : List Edge} {x y z : String} (h1 : Reach E x y) (h2 : Reach E y z) :
    Reach E x z :=
  Relation.ReflTransGen.trans h1 h2

lemma Reach.symm {E : List Edge} {x y : String} (h : Reach E x y) : Reach E y x :=
  Relation.ReflTransGen.symmetric (fun _ _ hu => adjB_symm hu) h

lemma Reach.mono {E F : List Edge} (hEF : ∀ u v, adjB E u v = true → adjB F u v = true)
    {x y : String} (h : Reach E x y) : Reach F x y :=
  Relation.ReflTransGen.mono (fun u v hu => hEF u v hu) h

lemma subset_closeStep (nodes : List String) (E : List Edge) (S : List String) :
    S ⊆ closeStep nodes E S :=
  fun _ hy => List.mem_append_left _ hy

lemma closeStep_subset {nodes : List String} {E : List Edge} {S : List String}
    {y : String} (hy : y ∈ closeStep nodes E S) : y ∈ S ∨ y ∈ nodes := by
  rcases List.mem_append.mp hy with h | h
  · exact Or.inl h
  · exact Or.inr (List.mem_filter.mp h).1

lemma mem_closeStep_sound {nodes : List String} {E : List Edge} {S : List String}
    {y : String} (hy : y ∈ closeStep nodes E S) :
    y ∈ S ∨ (y ∈ nodes ∧ y ∉ S ∧ ∃ x ∈ S, adjB E x y = true) := by
  rcases List.mem_append.mp hy with h | h
  · exact Or.inl h
  · obtain ⟨hyn, hpred⟩ := List.mem_filter.mp h
    rcases Bool.and_eq_true_iff.mp hpred with ⟨hnc, hany⟩
    rw [List.any_eq_true] at hany
    obtain ⟨x, hx, hadj⟩ := hany
    refine Or.inr ⟨hyn, ?_, x, hx, hadj⟩
    intro hmem
    rw [Bool.not_eq_true'] at hnc
    have h2 : S.contains y = true := List.elem_iff.mpr hmem
    rw [hnc] at h2
    exact Bool.false_ne_true h2

lemma mem_closeStep_filter {nodes : List String} {E : List Edge} {S : List String}
    {y : String} (hyn : y ∈ nodes) (hyS : y ∉ S) {x : String} (hx : x ∈ S)
    (hadj : adjB E x y = true) : y ∈ closeStep nodes E S := by
  refine List.mem_append_right _ (List.mem_filter.mpr ⟨hyn, ?_⟩)
  rw [Bool.and_eq_true_iff]
  constructor
  · rw [Bool.not_eq_true']
    rw [← Bool.not_eq_true]
    intro hc
    exact hyS (List.elem_iff.mp hc)
  · rw [List.any_eq_true]
    exact ⟨x, hx, hadj⟩

lemma subset_iterate (nodes : List String) (E : List Edge) :
    ∀ (k : Nat) (S : List String), S ⊆ (closeStep nodes E)^[k] S := by
  intro k
  induction k with
  | zero => intro S; simp
  | succ k ih =>
    intro S
    rw [Function.iterate_succ_apply]
    exact fun y hy => ih (closeStep nodes E S) (subset_closeStep nodes E S hy)

lemma iterate_subset_nodes {nodes : List String} {E : List Edge} :
    ∀ {k : Nat} {S : List String}, S ⊆ nodes → (closeStep nodes E)^[k] S ⊆ nodes := by
  intro k
  induction k with
  | zero => intro S h; simpa using h
  | succ k ih =>
    intro S h
    rw [Function.iterate_succ_apply]
    refine ih ?_
    intro y hy
    rcases closeStep_subset hy with h1 | h1
    · exact h h1
    · exact h1

lemma nodup_closeStep {nodes : List String} {E : List Edge} {S : List String}
    (hn : nodes.Nodup) (hS : S.Nodup) : (closeStep nodes E S).Nodup := by
  rw [closeStep, List.nodup_append]
  refine ⟨hS, hn.filter _, ?_⟩
  intro y hyS hyF
  obtain ⟨-, hpred⟩ := List.mem_filter.mp hyF
  rcases Bool.and_eq_true_iff.mp hpred with ⟨hnc, -⟩
  rw [Bool.not_eq_true'] at hnc
  have h2 : S.contains y = true := List.elem_iff.mpr hyS
  rw [hnc] at h2
  exact Bool.false_ne_true h2

lemma nodup_iterate {nodes : List String} {E : List Edge} (hn : nodes.Nodup) :
    ∀ {k : Nat} {S : List String}, S.Nodup → ((closeStep nodes E)^[k] S).Nodup := by
  intro k
  induction k with
  | zero => intro S h; simpa using h
  | succ k ih =>
    intro S h
    rw [Function.iterate_succ_apply]
    exact ih (nodup_closeStep hn h)

lemma iterate_sound {nodes : List String} {E : List Edge} {x : String} :
    ∀ {k : Nat} {S : List String}, (∀ s ∈ S, Reach E x s) →
      ∀ y ∈ (closeStep nodes E)^[k] S, Reach E x y := by
  intro k
  induction k with
  | zero => intro S h; simpa using h
  | succ k ih =>
    intro S h
    rw [Function.iterate_succ_apply]
    refine ih ?_
    intro s hs
    rcases mem_closeStep_sound hs with h1 | ⟨-, -, z, hz, hadj⟩
    · exact h s h1
    · exact Relation.ReflTransGen.tail (h z hz) hadj

lemma closeStep_ne_length {nodes : List String} {E : List Edge} {S : List String}
    (h : closeStep nodes E S ≠ S) : S.length < (closeStep nodes E S).length := by
  rw [closeStep] at h ⊢
  rcases hf : nodes.filter (fun y => !(S.contains y) && S.any (fun x => adjB E x y)) with _ | ⟨z, t⟩
  · exact absurd (by rw [hf, List.append_nil]) h
  · rw [List.length_append]
    simp

lemma iterate_grow (nodes : List String) (E : List Edge) (S : List String) :
    ∀ k : Nat,
      (∃ j ≤ k, closeStep nodes E ((closeStep nodes E)^[j] S) = (closeStep nodes E)^[j] S)
      ∨ S.length + k ≤ (((closeStep nodes E)^[k]) S).length := by
  intro k
  induction k with
  | zero => right; simp
  | succ k ih =>
    rcases ih with ⟨j, hj, hfix⟩ | hlen
    · exact Or.inl ⟨j, Nat.le_succ_of_le hj, hfix⟩
    · by_cases hfix : closeStep nodes E ((closeStep nodes E)^[k] S) = (closeStep nodes E)^[k] S
      · exact Or.inl ⟨k, Nat.le_succ k, hfix⟩
      · right
        rw [Function.iterate_succ_apply']
        have hlt := closeStep_ne_length hfix
        omega

lemma compOf_closed {nodes : List String} {E : List Edge} {x : String}
    (hn : nodes.Nodup) (hx : x ∈ nodes) :
    closeStep nodes E (compOf nodes E x) = compOf nodes E x := by
  rcases iterate_grow nodes E [x] nodes.length with ⟨j, hj, hfix⟩ | hlen
  · have hstable : (closeStep nodes E)^[nodes.length] [x] = (closeStep nodes E)^[j] [x] := by
      have hsplit : nodes.length = (nodes.length - j) + j := by omega
      rw [hsplit, Function.iterate_add_apply]
      exact Function.iterate_fixed hfix (nodes.length - j)
    rw [compOf, hstable, hfix]
  · exfalso
    have hsub : ((closeStep nodes E)^[nodes.length] [x]) ⊆ nodes :=
      iterate_subset_nodes (by simpa using hx)
    have hnd : ((closeStep nodes E)^[nodes.length] [x]).Nodup :=
      nodup_iterate hn (List.nodup_singleton x)
    have hle : ((closeStep nodes E)^[nodes.length] [x]).length ≤ nodes.length :=
      (List.subperm_of_subset hnd hsub).length_le
    simp only [List.length_singleton] at hlen
    omega

lemma mem_compOf_self (nodes : List String) (E : List Edge) (x : String) :
    x ∈ compOf nodes E x :=
  subset_iterate nodes E nodes.length [x] (List.mem_singleton_self x)

lemma compOf_subset {nodes : List String} {E : List Edge} {x : String} (hx : x ∈ nodes) :
    compOf nodes E x ⊆ nodes :=
  iterate_subset_nodes (by simpa using hx)

lemma compOf_sound {nodes : List String} {E : List Edge} {x y : String}
    (hy : y ∈ compOf nodes E x) : Reach E x y :=
  iterate_sound (fun s hs => by rw [List.mem_singleton.mp hs]; exact Reach.refl x) y hy

lemma compOf_complete {nodes : List String} {E : List Edge} {x y : String}
    (hn : nodes.Nodup) (hx : x ∈ nodes)
    (hw : ∀ e ∈ E, e.a ∈ nodes ∧ e.b ∈ nodes)
    (hreach : Reach E x y) : y ∈ compOf nodes E x := by
  induction hreach with
  | refl => exact mem_compOf_self nodes E x
  | tail hxb hadj ih =>
    rename_i b c
    have hcn : c ∈ nodes := by
      obtain ⟨e, he, hcase⟩ := adjB_mem hadj
      rcases hcase with ⟨-, h2⟩ | ⟨h2, -⟩
      · exact h2 ▸ (hw e he).2
      · exact h2 ▸ (hw e he).1
    by_cases hcc : c ∈ compOf nodes E x
    · exact hcc
    · have := mem_closeStep_filter hcn hcc ih hadj
      rw [compOf_closed hn hx] at this
      exact this

lemma samePair_iff {f e : Edge} :
    samePair f e = true ↔ (f.a = e.a ∧ f.b = e.b) ∨ (f.a = e.b ∧ f.b = e.a) := by
  rw [samePair, Bool.or_eq_true_iff, Bool.and_eq_true_iff, Bool.and_eq_true_iff]
  simp [beq_iff_eq]

lemma addNode_edges (G : Graph) (x : String) : (G.addNode x).edges = G.edges := by
  rw [Graph.addNode]
  split <;> rfl

lemma addEdge_edges_cases {G : Graph} {e f : Edge} (hf : f ∈ (G.addEdge e).edges) :
    f ∈ G.edges ∨ f = e := by
  rw [Graph.addEdge] at hf
  simp only at hf
  split at hf
  · obtain ⟨g, hg, hge⟩ := List.mem_map.mp hf
    by_cases hs : samePair g e = true
    · rw [if_pos hs] at hge
      exact Or.inr hge.symm
    · rw [if_neg hs] at hge
      exact Or.inl (hge ▸ hg)
  · rcases List.mem_append.mp hf with h | h
    · exact Or.inl h
    · exact Or.inr (List.mem_singleton.mp h)

lemma mem_addNode_iff {G : Graph} {x y : String} :
    y ∈ (G.addNode x).nodes ↔ y ∈ G.nodes ∨ y = x := by
  rw [Graph.addNode]
  split
  next h =>
    constructor
    · exact fun hy => Or.inl hy
    · rintro (hy | rfl)
      · exact hy
      · exact h
  next h => simp

lemma mem_addEdge_iff {G : Graph} {e : Edge} {y : String} :
    y ∈ (G.addEdge e).nodes ↔ y ∈ G.nodes ∨ y = e.a ∨ y = e.b := by
  show y ∈ ((G.addNode e.a).addNode e.b).nodes ↔ _
  rw [mem_addNode_iff, mem_addNode_iff]
  tauto

lemma addEdge_nodes_eq {G : Graph} {e : Edge} (ha : e.a ∈ G.nodes) (hb : e.b ∈ G.nodes) :
    (G.addEdge e).nodes = G.nodes := by
  show ((G.addNode e.a).addNode e.b).nodes = G.nodes
  rw [Graph.addNode, Graph.addNode]
  rw [if_pos ha]
  rw [if_pos hb]

lemma addNode_nodup {G : Graph} (hn : G.nodes.Nodup) (x : String) :
    (G.addNode x).nodes.Nodup := by
  rw [Graph.addNode]
  split
  next h => exact hn
  next h => simpa [List.nodup_append] using ⟨hn, fun hx => h hx⟩

lemma addEdge_nodup {G : Graph} (hn : G.nodes.Nodup) (e : Edge) :
    (G.addEdge e).nodes.Nodup :=
  addNode_nodup (addNode_nodup hn e.a) e.b

lemma nodes_subset_addNode (G : Graph) (x : String) : G.nodes ⊆ (G.addNode x).nodes :=
  fun _ hy => mem_addNode_iff.mpr (Or.inl hy)

lemma nodes_subset_addEdge (G : Graph) (e : Edge) : G.nodes ⊆ (G.addEdge e).nodes :=
  fun _ hy => mem_addEdge_iff.mpr (Or.inl hy)

lemma addEdge_wf {G : Graph} (hw : Wellformed G) (e : Edge) : Wellformed (G.addEdge e) := by
  intro f hf
  have hmema : e.a ∈ (G.addEdge e).nodes := mem_addEdge_iff.mpr (Or.inr (Or.inl rfl))
  have hmemb : e.b ∈ (G.addEdge e).nodes := mem_addEdge_iff.mpr (Or.inr (Or.inr rfl))
  rcases addEdge_edges_cases hf with h | rfl
  · obtain ⟨h1, h2⟩ := hw f h
    exact ⟨nodes_subset_addEdge G e h1, nodes_subset_addEdge G e h2⟩
  · exact ⟨hmema, hmemb⟩

lemma adjB_addEdge_of {G : Graph} {e : Edge} {x y : String}
    (h : adjB G.edges x y = true) : adjB (G.addEdge e).edges x y = true := by
  rw [adjB, List.any_eq_true] at h
  obtain ⟨f, hf, hcond⟩ := h
  simp only [beq_iff_eq, Bool.or_eq_true, Bool.and_eq_true] at hcond
  rw [Graph.addEdge]
  simp only
  split
  next hex =>
    by_cases hs : samePair f e = true
    · rw [adjB, List.any_eq_true]
      refine ⟨e, List.mem_map.mpr ⟨f, hf, by rw [if_pos hs]⟩, ?_⟩
      simp only [beq_iff_eq, Bool.or_eq_true, Bool.and_eq_true]
      rcases samePair_iff.mp hs with ⟨h1, h2⟩ | ⟨h1, h2⟩ <;>
        rcases hcond with ⟨hc1, hc2⟩ | ⟨hc1, hc2⟩
      · exact Or.inl ⟨h1 ▸ hc1, h2 ▸ hc2⟩
      · exact Or.inr ⟨h1 ▸ hc1, h2 ▸ hc2⟩
      · exact Or.inr ⟨h2 ▸ hc2, h1 ▸ hc1⟩
      · exact Or.inl ⟨h2 ▸ hc2, h1 ▸ hc1⟩
    · rw [adjB, List.any_eq_true]
      refine ⟨f, List.mem_map.mpr ⟨f, hf, by rw [if_neg hs]⟩, ?_⟩
      simp only [beq_iff_eq, Bool.or_eq_true, Bool.and_eq_true]
      exact hcond
  next hex =>
    rw [adjB, List.any_eq_true]
    refine ⟨f, List.mem_append_left _ hf, ?_⟩
    simp only [beq_iff_eq, Bool.or_eq_true, Bool.and_eq_true]
    exact hcond

lemma adjB_addEdge_self (G : Graph) (e : Edge) :
    adjB (G.addEdge e).edges e.a e.b = true := by
  rw [Graph.addEdge]
  simp only
  split
  next hex =>
    rw [List.any_eq_true] at hex
    obtain ⟨f, hf, hs⟩ := hex
    rw [adjB, List.any_eq_true]
    exact ⟨e, List.mem_map.mpr ⟨f, hf, by rw [if_pos hs]⟩, by simp⟩
  next hex =>
    rw [adjB, List.any_eq_true]
    exact ⟨e, List.mem_append_right _ (List.mem_singleton_self e), by simp⟩

lemma addEdge_fresh {G : Graph} {e : Edge}
    (h : ∀ f ∈ G.edges, ¬ samePair f e = true) :
    (G.addEdge e).edges = G.edges ++ [e] := by
  rw [Graph.addEdge]
  simp only
  split
  next hex =>
    rw [List.any_eq_true] at hex
    obtain ⟨f, hf, hs⟩ := hex
    exact absurd hs (h f hf)
  next hex => rfl

lemma compsGo_shape {nodes : List String} {E : List Edge} :
    ∀ {rest visited : List String} {c : List String},
      c ∈ compsGo nodes E rest visited →
      ∃ s ∈ rest, s ∉ visited ∧ c = compOf nodes E s := by
  intro rest
  induction rest with
  | nil => intro visited c hc; simp [compsGo] at hc
  | cons n rest ih =>
    intro visited c hc
    rw [compsGo] at hc
    split at hc
    next hv =>
      obtain ⟨s, hs, hsv, hceq⟩ := ih hc
      exact ⟨s, List.mem_cons_of_mem n hs, hsv, hceq⟩
    next hv =>
      rcases List.mem_cons.mp hc with rfl | hc2
      · refine ⟨n, List.mem_cons_self n rest, ?_, rfl⟩
        intro hmem
        exact hv (List.elem_iff.mpr hmem)
      · obtain ⟨s, hs, hsv, hceq⟩ := ih hc2
        refine ⟨s, List.mem_cons_of_mem n hs, ?_, hceq⟩
        intro hmem
        exact hsv (List.mem_append_left _ hmem)

lemma compsGo_cover {nodes : List String} {E : List Edge} :
    ∀ {rest visited : List String} {n : String}, n ∈ rest →
      n ∈ visited ∨ ∃ c ∈ compsGo nodes E rest visited, n ∈ c := by
  intro rest
  induction rest with
  | nil => intro visited n hn; simp at hn
  | cons m rest ih =>
    intro visited n hn
    rw [compsGo]
    split
    next hv =>
      rcases List.mem_cons.mp hn with rfl | hn2
      · exact Or.inl (List.elem_iff.mp hv)
      · exact ih hn2
    next hv =>
      rcases List.mem_cons.mp hn with rfl | hn2
      · exact Or.inr ⟨compOf nodes E n, List.mem_cons_self _ _, mem_compOf_self nodes E n⟩
      · rcases @ih (visited ++ compOf nodes E m) n hn2 with h | ⟨c, hc, hnc⟩
        · rcases List.mem_append.mp h with h2 | h2
          · exact Or.inl h2
          · exact Or.inr ⟨compOf nodes E m, List.mem_cons_self _ _, h2⟩
        · exact Or.inr ⟨c, List.mem_cons_of_mem _ hc, hnc⟩

lemma compsGo_nil_of_subset {nodes : List String} {E : List Edge} :
    ∀ {rest visited : List String}, (∀ n ∈ rest, n ∈ visited) →
      compsGo nodes E rest visited = [] := by
  intro rest
  induction rest with
  | nil => intro visited _; rw [compsGo]
  | cons m rest ih =>
    intro visited hsub
    rw [compsGo]
    rw [if_pos (List.elem_iff.mpr (hsub m (List.mem_cons_self m rest)))]
    exact ih (fun n hn => hsub n (List.mem_cons_of_mem m hn))

lemma componentsOf_shape {nodes : List String} {E : List Edge} {c : List String}
    (hc : c ∈ componentsOf nodes E) : ∃ s ∈ nodes, c = compOf nodes E s := by
  obtain ⟨s, hs, -, hceq⟩ := compsGo_shape hc
  exact ⟨s, hs, hceq⟩

lemma componentsOf_cover {nodes : List String} {E : List Edge} {n : String}
    (hn : n ∈ nodes) : ∃ c ∈ componentsOf nodes E, n ∈ c := by
  rcases @compsGo_cover nodes E nodes [] n hn with h | h
  · simp at h
  · exact h

lemma componentsOf_nonempty {nodes : List String} {E : List Edge} {c : List String}
    (hc : c ∈ componentsOf nodes E) : c ≠ [] := by
  obtain ⟨s, -, rfl⟩ := componentsOf_shape hc
  exact List.ne_nil_of_mem (mem_compOf_self nodes E s)

lemma componentsOf_subsets {nodes : List String} {E : List Edge} {c : List String}
    (hc : c ∈ componentsOf nodes E) : c ⊆ nodes := by
  obtain ⟨s, hs, rfl⟩ := componentsOf_shape hc
  exact compOf_subset hs

lemma componentsOf_ne_nil {nodes : List String} {E : List Edge} (hne : nodes ≠ []) :
    componentsOf nodes E ≠ [] := by
  rcases nodes with _ | ⟨n, rest⟩
  · exact absurd rfl hne
  · rw [componentsOf, compsGo]
    rw [if_neg (by simp)]
    exact List.cons_ne_nil _ _

lemma componentsOf_internal_reach {nodes : List String} {E : List Edge} {c : List String}
    (hc : c ∈ componentsOf nodes E) {u v : String} (hu : u ∈ c) (hv : v ∈ c) :
    Reach E u v := by
  obtain ⟨s, -, rfl⟩ := componentsOf_shape hc
  exact Reach.trans (Reach.symm (compOf_sound hu)) (compOf_sound hv)

lemma compOf_mem_of_mem_of_mem {nodes : List String} {E : List Edge}
    (hn : nodes.Nodup) (hw : ∀ e ∈ E, e.a ∈ nodes ∧ e.b ∈ nodes)
    {s s' z : String} (hs : s ∈ nodes) (hz : z ∈ compOf nodes E s)
    (hz' : z ∈ compOf nodes E s') : s' ∈ compOf nodes E s := by
  have h1 : Reach E s z := compOf_sound hz
  have h2 : Reach E s' z := compOf_sound hz'
  exact compOf_complete hn hs hw (Reach.trans h1 (Reach.symm h2))

lemma compsGo_pairwise {nodes : List String} {E : List Edge}
    (hn : nodes.Nodup) (hw : ∀ e ∈ E, e.a ∈ nodes ∧ e.b ∈ nodes) :
    ∀ {rest visited : List String}, rest ⊆ nodes →
      List.Pairwise (fun c d => ∀ z ∈ c, z ∉ d) (compsGo nodes E rest visited) := by
  intro rest
  induction rest with
  | nil => intro visited _; rw [compsGo]; exact List.Pairwise.nil
  | cons m rest ih =>
    intro visited hsub
    have hrest : rest ⊆ nodes := fun x hx => hsub (List.mem_cons_of_mem m hx)
    rw [compsGo]
    split
    next hv => exact ih hrest
    next hv =>
      refine List.Pairwise.cons ?_ (ih hrest)
      intro d hd z hzc hzd
      obtain ⟨s, hs, hsv, rfl⟩ := compsGo_shape hd
      have hsC : s ∈ compOf nodes E m :=
        compOf_mem_of_mem_of_mem hn hw (hsub (List.mem_cons_self m rest)) hzc hzd
      exact hsv (List.mem_append_right _ hsC)

lemma componentsOf_pairwise {nodes : List String} {E : List Edge}
    (hn : nodes.Nodup) (hw : ∀ e ∈ E, e.a ∈ nodes ∧ e.b ∈ nodes) :
    List.Pairwise (fun c d => ∀ z ∈ c, z ∉ d) (componentsOf nodes E) :=
  compsGo_pairwise hn hw (fun _ hx => hx)

lemma componentsOf_length_one {nodes : List String} {E : List Edge}
    (hn : nodes.Nodup) (hw : ∀ e ∈ E, e.a ∈ nodes ∧ e.b ∈ nodes) (hne : nodes ≠ [])
    (hall : ∀ u ∈ nodes, ∀ v ∈ nodes, Reach E u v) :
    (componentsOf nodes E).length = 1 := by
  obtain ⟨n0, rest, rfl⟩ : ∃ n0 rest, nodes = n0 :: rest := by
    rcases nodes with _ | ⟨n0, rest⟩
    · exact absurd rfl hne
    · exact ⟨n0, rest, rfl⟩
  rw [componentsOf, compsGo, if_neg (by simp)]
  have htail : compsGo (n0 :: rest) E rest ([] ++ compOf (n0 :: rest) E n0) = [] := by
    refine compsGo_nil_of_subset ?_
    intro n hnr
    refine List.mem_append_right _ ?_
    exact compOf_complete hn (List.mem_cons_self n0 rest) hw
      (hall n0 (List.mem_cons_self n0 rest) n (List.mem_cons_of_mem n0 hnr))
  rw [htail]
  rfl

lemma insertByLenDesc_perm (x : List String) :
    ∀ l : List (List String), List.Perm (insertByLenDesc x l) (x :: l) := by
  intro l
  induction l with
  | nil => rw [insertByLenDesc]
  | cons y ys ih =>
    rw [insertByLenDesc]
    split
    next h => exact (List.Perm.cons y ih).trans (List.Perm.swap x y ys)
    next h => exact List.Perm.refl _

lemma foldl_insertByLenDesc_perm :
    ∀ (l acc : List (List String)),
      List.Perm (l.foldl (fun acc x => insertByLenDesc x acc) acc) (l ++ acc) := by
  intro l
  induction l with
  | nil => intro acc; simp
  | cons x l ih =>
    intro acc
    rw [List.foldl_cons]
    have h1 := ih (insertByLenDesc x acc)
    have h2 : List.Perm (l ++ insertByLenDesc x acc) (l ++ (x :: acc)) :=
      List.Perm.append_left l (insertByLenDesc_perm x acc)
    have h3 : List.Perm (l ++ (x :: acc)) (x :: (l ++ acc)) := List.perm_middle
    exact ((h1.trans h2).trans h3)

lemma sortByLenDesc_perm (l : List (List String)) : List.Perm (sortByLenDesc l) l := by
  rw [sortByLenDesc]
  have h := foldl_insertByLenDesc_perm l []
  rw [List.append_nil] at h
  exact h

lemma sortByLenDesc_mem {l : List (List String)} {c : List String} :
    c ∈ sortByLenDesc l ↔ c ∈ l :=
  (sortByLenDesc_perm l).mem_iff

lemma sortByLenDesc_length (l : List (List String)) :
    (sortByLenDesc l).length = l.length :=
  (sortByLenDesc_perm l).length_eq

lemma sortByLenDesc_pairwise {l : List (List String)}
    (hp : List.Pairwise (fun c d => ∀ z ∈ c, z ∉ d) l) :
    List.Pairwise (fun c d => ∀ z ∈ c, z ∉ d) (sortByLenDesc l) := by
  refine (List.Perm.pairwise_iff ?_ (sortByLenDesc_perm l)).mpr hp
  intro c d h z hz hzd
  exact h z hzd hz

lemma lookupAll_mem {rep : String → Option Point} :
    ∀ {L : List String} {pts : List (String × Point)}, lookupAll rep L = some pts →
      ∀ bp ∈ pts, bp.1 ∈ L ∧ rep bp.1 = some bp.2 := by
  intro L
  induction L with
  | nil =>
    intro pts h bp hbp
    rw [lookupAll] at h
    cases h
    simp at hbp
  | cons b rest ih =>
    intro pts h bp hbp
    rw [lookupAll] at h
    cases hrb : rep b with
    | none => rw [hrb] at h; cases h
    | some p =>
      rw [hrb] at h
      cases hrec : lookupAll rep rest with
      | none => rw [hrec] at h; cases h
      | some tl =>
        rw [hrec] at h
        cases h
        rcases List.mem_cons.mp hbp with rfl | hbp2
        · exact ⟨List.mem_cons_self b rest, hrb⟩
        · obtain ⟨h1, h2⟩ := ih hrec bp hbp2
          exact ⟨List.mem_cons_of_mem b h1, h2⟩

lemma lookupAll_covers {rep : String → Option Point} :
    ∀ {L : List String} {pts : List (String × Point)}, lookupAll rep L = some pts →
      ∀ b ∈ L, ∃ p, rep b = some p ∧ (b, p) ∈ pts := by
  intro L
  induction L with
  | nil => intro pts _ b hb; simp at hb
  | cons c rest ih =>
    intro pts h b hb
    rw [lookupAll] at h
    cases hrc : rep c with
    | none => rw [hrc] at h; cases h
    | some p =>
      rw [hrc] at h
      cases hrec : lookupAll rep rest with
      | none => rw [hrec] at h; cases h
      | some tl =>
        rw [hrec] at h
        cases h
        rcases List.mem_cons.mp hb with rfl | hb2
        · exact ⟨p, hrc, List.mem_cons_self _ _⟩
        · obtain ⟨p2, hp1, hp2⟩ := ih hrec b hb2
          exact ⟨p2, hp1, List.mem_cons_of_mem _ hp2⟩

lemma firstMin_cons_ne_none (p : String × ℤ) (tl : List (String × ℤ)) :
    firstMin (p :: tl) ≠ none := by
  obtain ⟨pb, pd⟩ := p
  rw [firstMin]
  cases firstMin tl with
  | none => exact Option.some_ne_none _
  | some cd =>
    obtain ⟨c, d'⟩ := cd
    dsimp only
    by_cases hle : pd ≤ d'
    · rw [if_pos hle]; exact Option.some_ne_none _
    · rw [if_neg hle]; exact Option.some_ne_none _

lemma firstMin_mem :
    ∀ {l : List (String × ℤ)} {b : String} {d : ℤ}, firstMin l = some (b, d) → (b, d) ∈ l := by
  intro l
  induction l with
  | nil => intro b d h; rw [firstMin] at h; cases h
  | cons p tl ih =>
    intro b d h
    obtain ⟨pb, pd⟩ := p
    rw [firstMin] at h
    cases hrec : firstMin tl with
    | none =>
      rw [hrec] at h
      dsimp only at h
      cases h
      exact List.mem_cons_self _ _
    | some cd =>
      obtain ⟨c, d'⟩ := cd
      rw [hrec] at h
      dsimp only at h
      by_cases hle : pd ≤ d'
      · rw [if_pos hle] at h
        cases h
        exact List.mem_cons_self _ _
      · rw [if_neg hle] at h
        cases h
        exact List.mem_cons_of_mem _ (ih hrec)

lemma firstMin_le :
    ∀ {l : List (String × ℤ)} {b : String} {d : ℤ}, firstMin l = some (b, d) →
      ∀ cd ∈ l, d ≤ cd.2 := by
  intro l
  induction l with
  | nil => intro b d h; rw [firstMin] at h; cases h
  | cons p tl ih =>
    intro b d h cd hcd
    obtain ⟨pb, pd⟩ := p
    rw [firstMin] at h
    cases hrec : firstMin tl with
    | none =>
      rw [hrec] at h
      dsimp only at h
      cases h
      rcases List.mem_cons.mp hcd with rfl | hcd2
      · exact le_refl _
      · exfalso
        cases tl with
        | nil => simp at hcd2
        | cons x xs => exact firstMin_cons_ne_none x xs hrec
    | some cd' =>
      obtain ⟨c, d'⟩ := cd'
      rw [hrec] at h
      dsimp only at h
      by_cases hle : pd ≤ d'
      · rw [if_pos hle] at h
        cases h
        rcases List.mem_cons.mp hcd with rfl | hcd2
        · exact le_refl _
        · exact le_trans hle (ih hrec cd hcd2)
      · rw [if_neg hle] at h
        cases h
        rcases List.mem_cons.mp hcd with rfl | hcd2
        · exact le_of_lt (lt_of_not_le hle)
        · exact ih hrec cd hcd2

lemma bestGo_ok_none {rep : String → Option Point} {L : List String} :
    ∀ {as : List String} {best0 : Option (ℤ × String × String)},
      bestGo rep L as best0 = .ok none → best0 = none ∧ ∀ a ∈ as, rep a = none := by
  intro as
  induction as with
  | nil =>
    intro best0 h
    rw [bestGo] at h
    cases h
    exact ⟨rfl, by simp⟩
  | cons a1 rest ih =>
    intro best0 h
    rw [bestGo] at h
    cases hra : rep a1 with
    | none =>
      rw [hra] at h
      dsimp only at h
      obtain ⟨h1, h2⟩ := ih h
      refine ⟨h1, ?_⟩
      intro a ha
      rcases List.mem_cons.mp ha with rfl | ha2
      · exact hra
      · exact h2 a ha2
    | some ca =>
      rw [hra] at h
      dsimp only at h
      cases hlk : lookupAll rep L with
      | none => rw [hlk] at h; cases h
      | some pts =>
        rw [hlk] at h
        dsimp only at h
        cases hfm : firstMin (pts.map (fun bp => (bp.1, dist2 ca bp.2))) with
        | none => rw [hfm] at h; cases h
        | some bd =>
          obtain ⟨bm, dm⟩ := bd
          rw [hfm] at h
          dsimp only at h
          exfalso
          cases best0 with
          | none =>
            dsimp only at h
            exact Option.some_ne_none _ (ih h).1
          | some v =>
            obtain ⟨d0, a0, b0⟩ := v
            dsimp only at h
            split at h
            · exact Option.some_ne_none _ (ih h).1
            · exact Option.some_ne_none _ (ih h).1

lemma bestGo_spec {rep : String → Option Point} {L : List String} :
    ∀ {as : List String} {best0 : Option (ℤ × String × String)} {d : ℤ} {a b : String},
      bestGo rep L as best0 = .ok (some (d, a, b)) →
      (best0 = some (d, a, b) ∨
        (a ∈ as ∧ b ∈ L ∧ ∃ pa pb, rep a = some pa ∧ rep b = some pb ∧ d = dist2 pa pb))
      ∧ (∀ d0 a0 b0, best0 = some (d0, a0, b0) → d ≤ d0)
      ∧ (∀ a' ∈ as, ∀ pa', rep a' = some pa' →
          ∀ b' ∈ L, ∀ pb', rep b' = some pb' → d ≤ dist2 pa' pb') := by
  intro as
  induction as with
  | nil =>
    intro best0 d a b h
    rw [bestGo] at h
    cases h
    refine ⟨Or.inl rfl, ?_, by simp⟩
    intro d0 a0 b0 h0
    cases h0
    exact le_refl d
  | cons a1 rest ih =>
    intro best0 d a b h
    rw [bestGo] at h
    cases hra : rep a1 with
    | none =>
      rw [hra] at h
      dsimp only at h
      obtain ⟨h1, h2, h3⟩ := ih h
      refine ⟨?_, h2, ?_⟩
      · rcases h1 with h1 | ⟨ha, hb, hex⟩
        · exact Or.inl h1
        · exact Or.inr ⟨List.mem_cons_of_mem a1 ha, hb, hex⟩
      · intro a' ha' pa' hpa' b' hb' pb' hpb'
        rcases List.mem_cons.mp ha' with rfl | ha2
        · rw [hra] at hpa'; cases hpa'
        · exact h3 a' ha2 pa' hpa' b' hb' pb' hpb'
    | some ca =>
      rw [hra] at h
      dsimp only at h
      cases hlk : lookupAll rep L with
      | none => rw [hlk] at h; cases h
      | some pts =>
        rw [hlk] at h
        dsimp only at h
        cases hfm : firstMin (pts.map (fun bp => (bp.1, dist2 ca bp.2))) with
        | none => rw [hfm] at h; cases h
        | some bd =>
          obtain ⟨bm, dm⟩ := bd
          rw [hfm] at h
          dsimp only at h
          have hbmL : bm ∈ L ∧ ∃ pbm, rep bm = some pbm ∧ dm = dist2 ca pbm := by
            have hmem := firstMin_mem hfm
            obtain ⟨bp, hbp, hbpe⟩ := List.mem_map.mp hmem
            obtain ⟨hbp1, hbp2⟩ := Prod.mk.injEq .. ▸ hbpe
            obtain ⟨hbL, hrepb⟩ := lookupAll_mem hlk bp hbp
            exact ⟨hbp1 ▸ hbL, bp.2, hbp1 ▸ hrepb, hbp2.symm⟩
          have hdm_min : ∀ b' ∈ L, ∀ pb', rep b' = some pb' → dm ≤ dist2 ca pb' := by
            intro b' hb' pb' hpb'
            obtain ⟨p, hp1, hp2⟩ := lookupAll_covers hlk b' hb'
            rw [hpb'] at hp1
            cases hp1
            exact firstMin_le hfm (b', dist2 ca pb') (List.mem_map.mpr ⟨(b', pb'), hp2, rfl⟩)
          cases best0 with
          | none =>
            dsimp only at h
            obtain ⟨h1, h2, h3⟩ := ih h
            have hdle : d ≤ dm := h2 dm a1 bm rfl
            refine ⟨?_, by simp, ?_⟩
            · rcases h1 with h1 | ⟨ha, hb, hex⟩
              · obtain ⟨h1a, h1b, h1c⟩ := Prod.mk.injEq .. ▸ (Option.some.injEq .. ▸ h1)
                obtain ⟨hbmL1, pbm, hpbm, hdm⟩ := hbmL
                refine Or.inr ⟨?_, ?_, ca, pbm, ?_, ?_, ?_⟩
                · exact List.mem_cons_self a1 rest
                · exact hbmL1
                · exact hra
                · exact hpbm
                · rw [← h1a]
                  exact hdm
              · exact Or.inr ⟨List.mem_cons_of_mem a1 ha, hb, hex⟩
            · intro a' ha' pa' hpa' b' hb' pb' hpb'
              rcases List.mem_cons.mp ha' with rfl | ha2
              · rw [hra] at hpa'
                cases hpa'
                exact le_trans hdle (hdm_min b' hb' pb' hpb')
              · exact h3 a' ha2 pa' hpa' b' hb' pb' hpb'
          | some v =>
            obtain ⟨d0, a0, b0⟩ := v
            dsimp only at h
            split at h
            next hlt =>
              obtain ⟨h1, h2, h3⟩ := ih h
              have hdle : d ≤ dm := h2 dm a1 bm rfl
              refine ⟨?_, ?_, ?_⟩
              · rcases h1 with h1 | ⟨ha, hb, hex⟩
                · obtain ⟨h1a, h1b, h1c⟩ := Prod.mk.injEq .. ▸ (Option.some.injEq .. ▸ h1)
                  obtain ⟨hbmL1, pbm, hpbm, hdm⟩ := hbmL
                  refine Or.inr ⟨?_, ?_, ca, pbm, ?_, ?_, ?_⟩
                  · exact List.mem_cons_self a1 rest
                  · exact hbmL1
                  · exact hra
                  · exact hpbm
                  · rw [← h1a]
                    exact hdm
                · exact Or.inr ⟨List.mem_cons_of_mem a1 ha, hb, hex⟩
              · intro d0' a0' b0' h0
                obtain ⟨hd0, -, -⟩ := Prod.mk.injEq .. ▸ (Option.some.injEq .. ▸ h0)
                rw [← hd0]
                exact le_trans hdle (le_of_lt hlt)
              · intro a' ha' pa' hpa' b' hb' pb' hpb'
                rcases List.mem_cons.mp ha' with rfl | ha2
                · rw [hra] at hpa'
                  cases hpa'
                  exact le_trans hdle (hdm_min b' hb' pb' hpb')
                · exact h3 a' ha2 pa' hpa' b' hb' pb' hpb'
            next hlt =>
              obtain ⟨h1, h2, h3⟩ := ih h
              have hdle : d ≤ d0 := h2 d0 a0 b0 rfl
              have hd0m : d0 ≤ dm := le_of_not_lt hlt
              refine ⟨?_, ?_, ?_⟩
              · rcases h1 with h1 | ⟨ha, hb, hex⟩
                · exact Or.inl h1
                · exact Or.inr ⟨List.mem_cons_of_mem a1 ha, hb, hex⟩
              · intro d0' a0' b0' h0
                obtain ⟨hd0, -, -⟩ := Prod.mk.injEq .. ▸ (Option.some.injEq .. ▸ h0)
                rw [← hd0]
                exact hdle
              · intro a' ha' pa' hpa' b' hb' pb' hpb'
                rcases List.mem_cons.mp ha' with rfl | ha2
                · rw [hra] at hpa'
                  cases hpa'
                  exact le_trans (le_trans hdle hd0m) (hdm_min b' hb' pb' hpb')
                · exact h3 a' ha2 pa' hpa' b' hb' pb' hpb'

lemma bestGo_none_ok_some_mem {rep : String → Option Point} {L comp : List String}
    {d : ℤ} {a b : String} (h : bestGo rep L comp none = .ok (some (d, a, b))) :
    a ∈ comp ∧ b ∈ L := by
  obtain ⟨h1, -, -⟩ := bestGo_spec h
  rcases h1 with h1 | ⟨ha, hb, -⟩
  · cases h1
  · exact ⟨ha, hb⟩

lemma connectLoop_adjB_mono {rep : String → Option Point} :
    ∀ {comps : List (List String)} {L : List String} {G : Graph} {added : Nat}
      {G' : Graph} {added' : Nat} {L' : List String},
      connectLoop rep comps L G added = some (G', added', L') →
      ∀ x y, adjB G.edges x y = true → adjB G'.edges x y = true := by
  intro comps
  induction comps with
  | nil =>
    intro L G added G' added' L' h x y hadj
    rw [connectLoop] at h
    cases h
    exact hadj
  | cons comp rest ih =>
    intro L G added G' added' L' h x y hadj
    rw [connectLoop] at h
    cases hbg : bestGo rep L comp none with
    | error u => rw [hbg] at h; cases h
    | ok r =>
      rw [hbg] at h
      cases r with
      | none => exact ih h x y hadj
      | some v =>
        obtain ⟨d, a, b⟩ := v
        dsimp only at h
        exact ih h x y (adjB_addEdge_of hadj)

lemma connectLoop_nodes_eq {rep : String → Option Point} :
    ∀ {comps : List (List String)} {L : List String} {G : Graph} {added : Nat}
      {G' : Graph} {added' : Nat} {L' : List String},
      (∀ c ∈ comps, ∀ z ∈ c, z ∈ G.nodes) → (∀ z ∈ L, z ∈ G.nodes) →
      connectLoop rep comps L G added = some (G', added', L') →
      G'.nodes = G.nodes := by
  intro comps
  induction comps with
  | nil =>
    intro L G added G' added' L' _ _ h
    rw [connectLoop] at h
    cases h
    rfl
  | cons comp rest ih =>
    intro L G added G' added' L' hcomps hL h
    rw [connectLoop] at h
    cases hbg : bestGo rep L comp none with
    | error u => rw [hbg] at h; cases h
    | ok r =>
      rw [hbg] at h
      cases r with
      | none =>
        exact ih (fun c hc => hcomps c (List.mem_cons_of_mem comp hc)) hL h
      | some v =>
        obtain ⟨d, a, b⟩ := v
        dsimp only at h
        obtain ⟨hac, hbL⟩ := bestGo_none_ok_some_mem hbg
        have hnodes : (G.addEdge { a := a, b := b, tier := .bridge, w := (d : ℚ) }).nodes
            = G.nodes :=
          addEdge_nodes_eq (hcomps comp (List.mem_cons_self comp rest) a hac) (hL b hbL)
        have hrec := @ih (L ++ [a]) (G.addEdge { a := a, b := b, tier := .bridge, w := (d : ℚ) })
          (added + 1) G' added' L'
          (fun c hc z hz => by
            rw [hnodes]
            exact hcomps c (List.mem_cons_of_mem comp hc) z hz)
          (fun z hz => by
            rw [hnodes]
            rcases List.mem_append.mp hz with h2 | h2
            · exact hL z h2
            · rw [List.mem_singleton.mp h2]
              exact hcomps comp (List.mem_cons_self comp rest) a hac)
          h
        rw [hrec, hnodes]

lemma connectLoop_structure {rep : String → Option Point} :
    ∀ {comps : List (List String)} {L : List String} {G : Graph} {added : Nat}
      {G' : Graph} {added' : Nat} {L' : List String},
      connectLoop rep comps L G added = some (G', added', L') →
      ∃ bs : List Edge,
        G' = bs.foldl Graph.addEdge G ∧
        L' = L ++ bs.map Edge.a ∧
        added' = added + bs.length ∧
        (∀ e ∈ bs, e.tier = .bridge) ∧
        bridgeChain L bs := by
  intro comps
  induction comps with
  | nil =>
    intro L G added G' added' L' h
    rw [connectLoop] at h
    cases h
    exact ⟨[], rfl, by simp, by simp, by simp, trivial⟩
  | cons comp rest ih =>
    intro L G added G' added' L' h
    rw [connectLoop] at h
    cases hbg : bestGo rep L comp none with
    | error u => rw [hbg] at h; cases h
    | ok r =>
      rw [hbg] at h
      cases r with
      | none => exact ih h
      | some v =>
        obtain ⟨d, a, b⟩ := v
        dsimp only at h
        obtain ⟨hac, hbL⟩ := bestGo_none_ok_some_mem hbg
        obtain ⟨bs, hG, hL', hadd, htier, hchain⟩ := ih h
        refine ⟨{ a := a, b := b, tier := .bridge, w := (d : ℚ) } :: bs, ?_, ?_, ?_, ?_, ?_⟩
        · rw [hG]; rfl
        · rw [hL']; simp
        · rw [hadd]; simp; omega
        · intro e he
          rcases List.mem_cons.mp he with rfl | he2
          · rfl
          · exact htier e he2
        · exact ⟨hbL, hchain⟩

lemma connectLoop_count {rep : String → Option Point} :
    ∀ {comps : List (List String)} {L : List String} {G : Graph} {added : Nat}
      {G' : Graph} {added' : Nat} {L' : List String},
      (∀ c ∈ comps, ∃ x ∈ c, (rep x).isSome) →
      connectLoop rep comps L G added = some (G', added', L') →
      added' = added + comps.length := by
  intro comps
  induction comps with
  | nil =>
    intro L G added G' added' L' _ h
    rw [connectLoop] at h
    cases h
    simp
  | cons comp rest ih =>
    intro L G added G' added' L' hrep h
    rw [connectLoop] at h
    cases hbg : bestGo rep L comp none with
    | error u => rw [hbg] at h; cases h
    | ok r =>
      rw [hbg] at h
      cases r with
      | none =>
        exfalso
        obtain ⟨-, hall⟩ := bestGo_ok_none hbg
        obtain ⟨x, hx, hxs⟩ := hrep comp (List.mem_cons_self comp rest)
        rw [hall x hx] at hxs
        exact Bool.false_ne_true hxs
      | some v =>
        obtain ⟨d, a, b⟩ := v
        dsimp only at h
        have := ih (fun c hc => hrep c (List.mem_cons_of_mem comp hc)) h
        rw [this]
        simp
        omega

lemma connectLoop_reach {rep : String → Option Point} :
    ∀ {comps : List (List String)} {L : List String} {G : Graph} {added : Nat}
      {G' : Graph} {added' : Nat} {L' : List String},
      (∀ u ∈ L, ∀ v ∈ L, Reach G.edges u v) →
      (∀ c ∈ comps, ∀ u ∈ c, ∀ v ∈ c, Reach G.edges u v) →
      (∀ c ∈ comps, ∃ x ∈ c, (rep x).isSome) →
      connectLoop rep comps L G added = some (G', added', L') →
      ∀ u, (u ∈ L ∨ ∃ c ∈ comps, u ∈ c) →
        ∀ v, (v ∈ L ∨ ∃ c ∈ comps, v ∈ c) → Reach G'.edges u v := by
  intro comps
  induction comps with
  | nil =>
    intro L G added G' added' L' hLr _ _ h u hu v hv
    rw [connectLoop] at h
    cases h
    rcases hu with hu | ⟨c, hc, -⟩
    · rcases hv with hv | ⟨c, hc, -⟩
      · exact hLr u hu v hv
      · simp at hc
    · simp at hc
  | cons comp rest ih =>
    intro L G added G' added' L' hLr hcomps hrep h u hu v hv
    rw [connectLoop] at h
    cases hbg : bestGo rep L comp none with
    | error e => rw [hbg] at h; cases h
    | ok r =>
      rw [hbg] at h
      cases r with
      | none =>
        exfalso
        obtain ⟨-, hall⟩ := bestGo_ok_none hbg
        obtain ⟨x, hx, hxs⟩ := hrep comp (List.mem_cons_self comp rest)
        rw [hall x hx] at hxs
        exact Bool.false_ne_true hxs
      | some w =>
        obtain ⟨d, a, b⟩ := w
        dsimp only at h
        obtain ⟨hac, hbL⟩ := bestGo_none_ok_some_mem hbg
        set e : Edge := { a := a, b := b, tier := .bridge, w := (d : ℚ) } with he
        have hab1 : adjB (G.addEdge e).edges a b = true := adjB_addEdge_self G e
        have hmono1 : ∀ x y, adjB G.edges x y = true → adjB (G.addEdge e).edges x y = true :=
          fun x y hxy => adjB_addEdge_of hxy
        have hreach1 : ∀ z ∈ L ++ [a], Reach (G.addEdge e).edges z a := by
          intro z hz
          rcases List.mem_append.mp hz with hzL | hza
          · have h1 : Reach G.edges z b := hLr z hzL b hbL
            exact Relation.ReflTransGen.tail (Reach.mono hmono1 h1) (adjB_symm hab1)
          · rw [List.mem_singleton.mp hza]
            exact Reach.refl a
        have hLr1 : ∀ u' ∈ L ++ [a], ∀ v' ∈ L ++ [a], Reach (G.addEdge e).edges u' v' := by
          intro u' hu' v' hv'
          exact Reach.trans (hreach1 u' hu') (Reach.symm (hreach1 v' hv'))
        have hcomps1 : ∀ c ∈ rest, ∀ u' ∈ c, ∀ v' ∈ c, Reach (G.addEdge e).edges u' v' :=
          fun c hc u' hu' v' hv' =>
            Reach.mono hmono1 (hcomps c (List.mem_cons_of_mem comp hc) u' hu' v' hv')
        have hrep1 : ∀ c ∈ rest, ∃ x ∈ c, (rep x).isSome :=
          fun c hc => hrep c (List.mem_cons_of_mem comp hc)
        have hmonoAll : ∀ x y, adjB (G.addEdge e).edges x y = true → adjB G'.edges x y = true :=
          connectLoop_adjB_mono h
        have haL1 : a ∈ L ++ [a] := List.mem_append_right _ (List.mem_singleton_self a)
        have hWa : ∀ w, (w ∈ L ∨ ∃ c ∈ comp :: rest, w ∈ c) → Reach G'.edges a w := by
          intro w hw
          rcases hw with hwL | ⟨c, hc, hwc⟩
          · exact ih hLr1 hcomps1 hrep1 h a (Or.inl haL1) w (Or.inl (List.mem_append_left _ hwL))
          · rcases List.mem_cons.mp hc with rfl | hc2
            · have h1 : Reach G.edges a w := hcomps c (List.mem_cons_self c rest) a hac w hwc
              exact Reach.mono hmonoAll (Reach.mono hmono1 h1)
            · exact ih hLr1 hcomps1 hrep1 h a (Or.inl haL1) w (Or.inr ⟨c, hc2, hwc⟩)
        exact Reach.trans (Reach.symm (hWa u hu)) (hWa v hv)

lemma connectLoop_edges_append {rep : String → Option Point} {E0 : List Edge} :
    ∀ {comps : List (List String)} {L : List String} {G : Graph} {added : Nat}
      {G' : Graph} {added' : Nat} {L' : List String},
      (∀ c ∈ comps, ∀ z ∈ c, z ∈ G.nodes) →
      (∀ z ∈ L, z ∈ G.nodes) →
      (∀ c ∈ comps, ∀ z ∈ L, z ∉ c) →
      List.Pairwise (fun c d => ∀ z ∈ c, z ∉ d) comps →
      (∀ c ∈ comps, ∀ x ∈ c, ∀ y ∈ G.nodes, adjB E0 x y = true → y ∈ c) →
      (∀ e ∈ G.edges, e ∈ E0 ∨ (e.tier = Tier.bridge ∧ ∀ c ∈ comps, e.a ∉ c ∧ e.b ∉ c)) →
      connectLoop rep comps L G added = some (G', added', L') →
      ∃ bs, G'.edges = G.edges ++ bs ∧ ∀ e ∈ bs, e.tier = Tier.bridge := by
  intro comps
  induction comps with
  | nil =>
    intro L G added G' added' L' _ _ _ _ _ _ h
    rw [connectLoop] at h
    cases h
    exact ⟨[], by simp, by simp⟩
  | cons comp rest ih =>
    intro L G added G' added' L' hGnodes hLn hLdisj hpair hclosed hG h
    rw [connectLoop] at h
    cases hbg : bestGo rep L comp none with
    | error e => rw [hbg] at h; cases h
    | ok r =>
      rw [hbg] at h
      cases r with
      | none =>
        refine ih (fun c hc => hGnodes c (List.mem_cons_of_mem comp hc)) hLn
          (fun c hc => hLdisj c (List.mem_cons_of_mem comp hc)) (List.Pairwise.of_cons hpair)
          (fun c hc => hclosed c (List.mem_cons_of_mem comp hc))
          (fun e he => ?_) h
        rcases hG e he with h1 | ⟨h1, h2⟩
        · exact Or.inl h1
        · exact Or.inr ⟨h1, fun c hc => h2 c (List.mem_cons_of_mem comp hc)⟩
      | some w =>
        obtain ⟨d, a, b⟩ := w
        dsimp only at h
        obtain ⟨hac, hbL⟩ := bestGo_none_ok_some_mem hbg
        set e : Edge := { a := a, b := b, tier := .bridge, w := (d : ℚ) } with hedef
        have hcomp_mem : comp ∈ comp :: rest := List.mem_cons_self comp rest
        have hrel : ∀ c ∈ rest, ∀ z ∈ comp, z ∉ c := (List.pairwise_cons.mp hpair).1
        have hfresh : ∀ f ∈ G.edges, ¬ samePair f e = true := by
          intro f hf hs
          rcases hG f hf with h1 | ⟨-, h2⟩
          · have hadj : adjB E0 a b = true := by
              rw [adjB, List.any_eq_true]
              refine ⟨f, h1, ?_⟩
              rcases samePair_iff.mp hs with ⟨hfa, hfb⟩ | ⟨hfa, hfb⟩
              · exact Bool.or_eq_true_iff.mpr (Or.inl (Bool.and_eq_true_iff.mpr
                  ⟨beq_iff_eq.mpr hfa, beq_iff_eq.mpr hfb⟩))
              · exact Bool.or_eq_true_iff.mpr (Or.inr (Bool.and_eq_true_iff.mpr
                  ⟨beq_iff_eq.mpr hfa, beq_iff_eq.mpr hfb⟩))
            have hbcomp : b ∈ comp :=
              hclosed comp hcomp_mem a hac b (hLn b hbL) hadj
            exact hLdisj comp hcomp_mem b hbL hbcomp
          · obtain ⟨hfa, hfb⟩ := h2 comp hcomp_mem
            rcases samePair_iff.mp hs with ⟨h3, -⟩ | ⟨-, h3⟩
            · exact hfa (h3 ▸ hac)
            · exact hfb (h3 ▸ hac)
        have hG1edges : (G.addEdge e).edges = G.edges ++ [e] := addEdge_fresh hfresh
        have hG1nodes : (G.addEdge e).nodes = G.nodes :=
          addEdge_nodes_eq (hGnodes comp hcomp_mem a hac) (hLn b hbL)
        obtain ⟨bs, hbs, htier⟩ := @ih (L ++ [a]) (G.addEdge e) (added + 1) G' added' L'
          (fun c hc z hz => by rw [hG1nodes]; exact hGnodes c (List.mem_cons_of_mem comp hc) z hz)
          (fun z hz => by
            rw [hG1nodes]
            rcases List.mem_append.mp hz with h2 | h2
            · exact hLn z h2
            · rw [List.mem_singleton.mp h2]
              exact hGnodes comp hcomp_mem a hac)
          (fun c hc z hz => by
            rcases List.mem_append.mp hz with h2 | h2
            · exact hLdisj c (List.mem_cons_of_mem comp hc) z h2
            · rw [List.mem_singleton.mp h2]
              exact hrel c hc a hac)
          (List.Pairwise.of_cons hpair)
          (fun c hc x hx y hy hadj => by
            rw [hG1nodes] at hy
            exact hclosed c (List.mem_cons_of_mem comp hc) x hx y hy hadj)
          (fun f hf => by
            rw [hG1edges] at hf
            rcases List.mem_append.mp hf with h2 | h2
            · rcases hG f h2 with h3 | ⟨h3, h4⟩
              · exact Or.inl h3
              · exact Or.inr ⟨h3, fun c hc => h4 c (List.mem_cons_of_mem comp hc)⟩
            · rw [List.mem_singleton.mp h2]
              refine Or.inr ⟨rfl, ?_⟩
              intro c hc
              exact ⟨hrel c hc a hac, fun hbc => hLdisj c (List.mem_cons_of_mem comp hc) b hbL hbc⟩)
          h
        refine ⟨e :: bs, ?_, ?_⟩
        · rw [hbs, hG1edges, List.append_assoc]
          rfl
        · intro f hf
          rcases List.mem_cons.mp hf with rfl | hf2
          · rfl
          · exact htier f hf2

lemma componentsOf_closed {nodes : List String} {E : List Edge} {c : List String}
    (hn : nodes.Nodup) (hc : c ∈ componentsOf nodes E) :
    ∀ x ∈ c, ∀ y ∈ nodes, adjB E x y = true → y ∈ c := by
  obtain ⟨s, hs, rfl⟩ := componentsOf_shape hc
  intro x hx y hy hadj
  by_cases hyc : y ∈ compOf nodes E s
  · exact hyc
  · have := mem_closeStep_filter hy hyc hx hadj
    rw [compOf_closed hn hs] at this
    exact this

lemma foldl_addEdge_wf : ∀ {bs : List Edge} {G : Graph},
    Wellformed G → Wellformed (bs.foldl Graph.addEdge G) := by
  intro bs
  induction bs with
  | nil => intro G hw; exact hw
  | cons e bs ih =>
    intro G hw
    rw [List.foldl_cons]
    exact ih (addEdge_wf hw e)

lemma connect_nodes_eq {rep : String → Option Point} {G G' : Graph} {added : Nat}
    {L' : List String} (hsucc : connect_components_to_largest rep G = some (G', added, L')) :
    G'.nodes = G.nodes := by
  rw [connect_components_to_largest] at hsucc
  by_cases h1 : (componentsOf G.nodes G.edges).length ≤ 1
  · rw [if_pos h1] at hsucc
    cases hsucc
    rfl
  · rw [if_neg h1] at hsucc
    cases hsort : sortByLenDesc (componentsOf G.nodes G.edges) with
    | nil =>
      rw [hsort] at hsucc
      cases hsucc
      rfl
    | cons largest others =>
      rw [hsort] at hsucc
      dsimp only at hsucc
      have hsorted_mem : ∀ c ∈ largest :: others, c ∈ componentsOf G.nodes G.edges := by
        intro c hc
        rw [← hsort] at hc
        exact sortByLenDesc_mem.mp hc
      refine connectLoop_nodes_eq ?_ ?_ hsucc
      · intro c hc z hz
        exact componentsOf_subsets (hsorted_mem c (List.mem_cons_of_mem largest hc)) hz
      · intro z hz
        exact componentsOf_subsets (hsorted_mem largest (List.mem_cons_self largest others)) hz

lemma connect_one_component {rep : String → Option Point} {G G' : Graph} {added : Nat}
    {L' : List String}
    (hn : G.nodes.Nodup) (hw : Wellformed G) (hne : G.nodes ≠ [])
    (hrep : ∀ c ∈ (sortByLenDesc (componentsOf G.nodes G.edges)).tail, ∃ x ∈ c, (rep x).isSome)
    (hsucc : connect_components_to_largest rep G = some (G', added, L')) :
    (componentsOf G'.nodes G'.edges).length = 1 := by
  have hwf : ∀ e ∈ G.edges, e.a ∈ G.nodes ∧ e.b ∈ G.nodes := hw
  rw [connect_components_to_largest] at hsucc
  by_cases h1 : (componentsOf G.nodes G.edges).length ≤ 1
  · rw [if_pos h1] at hsucc
    cases hsucc
    have h2 := @componentsOf_ne_nil G.nodes G.edges hne
    have h3 := List.length_pos.mpr h2
    omega
  · rw [if_neg h1] at hsucc
    cases hsort : sortByLenDesc (componentsOf G.nodes G.edges) with
    | nil =>
      exfalso
      have := sortByLenDesc_length (componentsOf G.nodes G.edges)
      rw [hsort] at this
      simp at this
      rw [← this] at h1
      exact h1 (by omega)
    | cons largest others =>
      rw [hsort] at hsucc
      dsimp only at hsucc
      have hsorted_mem : ∀ c ∈ largest :: others, c ∈ componentsOf G.nodes G.edges := by
        intro c hc
        rw [← hsort] at hc
        exact sortByLenDesc_mem.mp hc
      have hLmem := hsorted_mem largest (List.mem_cons_self largest others)
      have hOmem : ∀ c ∈ others, c ∈ componentsOf G.nodes G.edges :=
        fun c hc => hsorted_mem c (List.mem_cons_of_mem largest hc)
      have hrep2 : ∀ c ∈ others, ∃ x ∈ c, (rep x).isSome := by
        intro c hc
        refine hrep c ?_
        rw [hsort]
        exact hc
      have hcover : ∀ u ∈ G.nodes, u ∈ largest ∨ ∃ c ∈ others, u ∈ c := by
        intro u hu
        obtain ⟨c, hc, huc⟩ := componentsOf_cover hu
        have hc2 : c ∈ largest :: others := by
          rw [← hsort]
          exact sortByLenDesc_mem.mpr hc
        rcases List.mem_cons.mp hc2 with rfl | hc3
        · exact Or.inl huc
        · exact Or.inr ⟨c, hc3, huc⟩
      have hreach := connectLoop_reach
        (fun u hu v hv => componentsOf_internal_reach hLmem hu hv)
        (fun c hc u hu v hv => componentsOf_internal_reach (hOmem c hc) hu hv)
        hrep2 hsucc
      have hnodes : G'.nodes = G.nodes := by
        refine connectLoop_nodes_eq ?_ ?_ hsucc
        · intro c hc z hz
          exact componentsOf_subsets (hOmem c hc) hz
        · intro z hz
          exact componentsOf_subsets hLmem hz
      have hw2 : Wellformed G' := by
        obtain ⟨bs, hG, -, -, -, -⟩ := connectLoop_structure hsucc
        rw [hG]
        exact foldl_addEdge_wf hw
      have hall : ∀ u ∈ G'.nodes, ∀ v ∈ G'.nodes, Reach G'.edges u v := by
        intro u hu v hv
        rw [hnodes] at hu hv
        refine hreach u ?_ v ?_
        · rcases hcover u hu with h2 | h2
          · exact Or.inl h2
          · exact Or.inr h2
        · rcases hcover v hv with h2 | h2
          · exact Or.inl h2
          · exact Or.inr h2
      refine componentsOf_length_one ?_ ?_ ?_ hall
      · rw [hnodes]; exact hn
      · exact hw2
      · rw [hnodes]; exact hne

lemma connect_count {rep : String → Option Point} {G G' : Graph} {added : Nat}
    {L' : List String}
    (hrep : ∀ c ∈ (sortByLenDesc (componentsOf G.nodes G.edges)).tail, ∃ x ∈ c, (rep x).isSome)
    (hsucc : connect_components_to_largest rep G = some (G', added, L')) :
    added = (componentsOf G.nodes G.edges).length - 1 := by
  rw [connect_components_to_largest] at hsucc
  by_cases h1 : (componentsOf G.nodes G.edges).length ≤ 1
  · rw [if_pos h1] at hsucc
    obtain ⟨-, h2, -⟩ := Prod.mk.injEq .. ▸ (Option.some.injEq .. ▸ hsucc)
    omega
  · rw [if_neg h1] at hsucc
    cases hsort : sortByLenDesc (componentsOf G.nodes G.edges) with
    | nil =>
      exfalso
      have := sortByLenDesc_length (componentsOf G.nodes G.edges)
      rw [hsort] at this
      simp at this
      omega
    | cons largest others =>
      rw [hsort] at hsucc
      dsimp only at hsucc
      have hrep2 : ∀ c ∈ others, ∃ x ∈ c, (rep x).isSome := by
        intro c hc
        refine hrep c ?_
        rw [hsort]
        exact hc
      have hcount := connectLoop_count hrep2 hsucc
      have hlen := sortByLenDesc_length (componentsOf G.nodes G.edges)
      rw [hsort] at hlen
      simp only [List.length_cons] at hlen
      omega

lemma connect_fresh {rep : String → Option Point} {G G' : Graph} {added : Nat}
    {L' : List String} (hn : G.nodes.Nodup) (hw : Wellformed G)
    (hsucc : connect_components_to_largest rep G = some (G', added, L')) :
    ∃ bs, G'.edges = G.edges ++ bs ∧ ∀ e ∈ bs, e.tier = Tier.bridge := by
  have hwf : ∀ e ∈ G.edges, e.a ∈ G.nodes ∧ e.b ∈ G.nodes := hw
  rw [connect_components_to_largest] at hsucc
  by_cases h1 : (componentsOf G.nodes G.edges).length ≤ 1
  · rw [if_pos h1] at hsucc
    obtain ⟨h2, -, -⟩ := Prod.mk.injEq .. ▸ (Option.some.injEq .. ▸ hsucc)
    exact ⟨[], by rw [← h2, List.append_nil], by simp⟩
  · rw [if_neg h1] at hsucc
    cases hsort : sortByLenDesc (componentsOf G.nodes G.edges) with
    | nil =>
      rw [hsort] at hsucc
      obtain ⟨h2, -, -⟩ := Prod.mk.injEq .. ▸ (Option.some.injEq .. ▸ hsucc)
      exact ⟨[], by rw [← h2, List.append_nil], by simp⟩
    | cons largest others =>
      rw [hsort] at hsucc
      dsimp only at hsucc
      have hsorted_mem : ∀ c ∈ largest :: others, c ∈ componentsOf G.nodes G.edges := by
        intro c hc
        rw [← hsort] at hc
        exact sortByLenDesc_mem.mp hc
      have hLmem := hsorted_mem largest (List.mem_cons_self largest others)
      have hOmem : ∀ c ∈ others, c ∈ componentsOf G.nodes G.edges :=
        fun c hc => hsorted_mem c (List.mem_cons_of_mem largest hc)
      have hpairAll : List.Pairwise (fun c d => ∀ z ∈ c, z ∉ d) (largest :: others) := by
        rw [← hsort]
        exact sortByLenDesc_pairwise (componentsOf_pairwise hn hwf)
      obtain ⟨hLrel, hpair⟩ := List.pairwise_cons.mp hpairAll
      refine @connectLoop_edges_append rep G.edges others largest G 0 G' added L' ?_ ?_ ?_ hpair ?_ ?_ hsucc
      · intro c hc z hz
        exact componentsOf_subsets (hOmem c hc) hz
      · intro z hz
        exact componentsOf_subsets hLmem hz
      · intro c hc z hz hzc
        exact hLrel c hc z hz hzc
      · intro c hc x hx y hy hadj
        exact componentsOf_closed hn (hOmem c hc) x hx y hy hadj
      · intro e he
        exact Or.inl he

lemma samePair_comm {e f : Edge} (h : samePair e f = true) : samePair f e = true := by
  rcases samePair_iff.mp h with ⟨h1, h2⟩ | ⟨h1, h2⟩
  · exact samePair_iff.mpr (Or.inl ⟨h1.symm, h2.symm⟩)
  · exact samePair_iff.mpr (Or.inr ⟨h2.symm, h1.symm⟩)

lemma foldl_addNode_mem :
    ∀ {gdf : List Region} {G0 : Graph} {x : String},
      x ∈ (gdf.foldl (fun G r => G.addNode r.id) G0).nodes ↔
        x ∈ G0.nodes ∨ ∃ r ∈ gdf, r.id = x := by
  intro gdf
  induction gdf with
  | nil => intro G0 x; simp
  | cons r gdf ih =>
    intro G0 x
    rw [List.foldl_cons, ih, mem_addNode_iff]
    constructor
    · rintro (⟨h | h⟩ | ⟨r2, hr2, he⟩)
      · exact Or.inl h
      · exact Or.inr ⟨r, List.mem_cons_self r gdf, h.symm⟩
      · exact Or.inr ⟨r2, List.mem_cons_of_mem r hr2, he⟩
    · rintro (h | ⟨r2, hr2, he⟩)
      · exact Or.inl (Or.inl h)
      · rcases List.mem_cons.mp hr2 with rfl | hr3
        · exact Or.inl (Or.inr he.symm)
        · exact Or.inr ⟨r2, hr3, he⟩

lemma initNodes_mem {gdf : List Region} {x : String} :
    x ∈ (initNodes gdf).nodes ↔ ∃ r ∈ gdf, r.id = x := by
  rw [initNodes, foldl_addNode_mem]
  simp

lemma foldl_addNode_nodup :
    ∀ {gdf : List Region} {G0 : Graph}, G0.nodes.Nodup →
      (gdf.foldl (fun G r => G.addNode r.id) G0).nodes.Nodup := by
  intro gdf
  induction gdf with
  | nil => intro G0 h; exact h
  | cons r gdf ih =>
    intro G0 h
    rw [List.foldl_cons]
    exact ih (addNode_nodup h r.id)

lemma initNodes_nodup (gdf : List Region) : (initNodes gdf).nodes.Nodup :=
  foldl_addNode_nodup List.nodup_nil

lemma foldl_addNode_edges :
    ∀ {gdf : List Region} {G0 : Graph},
      (gdf.foldl (fun G r => G.addNode r.id) G0).edges = G0.edges := by
  intro gdf
  induction gdf with
  | nil => intro G0; rfl
  | cons r gdf ih =>
    intro G0
    rw [List.foldl_cons, ih, addNode_edges]

lemma initNodes_edges (gdf : List Region) : (initNodes gdf).edges = [] :=
  foldl_addNode_edges

lemma initNodes_wf (gdf : List Region) : Wellformed (initNodes gdf) := by
  intro e he
  rw [initNodes_edges] at he
  simp at he

lemma pairDecision_some_shape {gdf : List Region} {geo : GeoOracle} {m t : ℚ}
    {i j : Nat} {e : Edge} (h : pairDecision gdf geo m t i j = some e) :
    i < j ∧ ∃ ri rj, gdf[i]? = some ri ∧ gdf[j]? = some rj ∧
      e.a = ri.id ∧ e.b = rj.id ∧ (e.tier = Tier.strict ∨ e.tier = Tier.tolerance) := by
  rw [pairDecision] at h
  split at h
  · cases h
  next hji =>
    cases hgi : gdf[i]? with
    | none => rw [hgi] at h; dsimp only at h; cases h
    | some ri =>
      cases hgj : gdf[j]? with
      | none => rw [hgi, hgj] at h; dsimp only at h; cases h
      | some rj =>
        rw [hgi, hgj] at h
        dsimp only at h
        refine ⟨by omega, ri, rj, rfl, rfl, ?_⟩
        rw [classifyPair] at h
        split at h
        · split at h
          · cases h
            exact ⟨rfl, rfl, Or.inl rfl⟩
          · cases h
        · split at h
          · split at h
            · cases h
              exact ⟨rfl, rfl, Or.inr rfl⟩
            · cases h
          · cases h

lemma ids_getElem_inj {gdf : List Region} (hids : (gdf.map Region.id).Nodup)
    {i j : Nat} {ri rj : Region} (hi : gdf[i]? = some ri) (hj : gdf[j]? = some rj)
    (hne : i ≠ j) : ri.id ≠ rj.id := by
  have hilt : i < gdf.length := by
    by_contra hc
    rw [List.getElem?_eq_none (by omega)] at hi
    cases hi
  have hjlt : j < gdf.length := by
    by_contra hc
    rw [List.getElem?_eq_none (by omega)] at hj
    cases hj
  have hie : gdf[i] = ri := by
    have := List.getElem?_eq_getElem hilt
    rw [this] at hi
    exact Option.some.injEq .. ▸ hi
  have hje : gdf[j] = rj := by
    have := List.getElem?_eq_getElem hjlt
    rw [this] at hj
    exact Option.some.injEq .. ▸ hj
  intro heq
  have hmi : i < (gdf.map Region.id).length := by simpa using hilt
  have hmj : j < (gdf.map Region.id).length := by simpa using hjlt
  have h1 : (gdf.map Region.id)[i] = (gdf.map Region.id)[j] := by
    rw [List.getElem_map, List.getElem_map, hie, hje]
    exact heq
  exact hne ((hids.getElem_inj_iff).mp h1)

lemma decisions_samePair_imp {gdf : List Region} {geo : GeoOracle} {m1 m2 t : ℚ}
    (hids : (gdf.map Region.id).Nodup) {p q : Nat × Nat} {e f : Edge}
    (hp : pairDecision gdf geo m1 t p.1 p.2 = some e)
    (hq : pairDecision gdf geo m2 t q.1 q.2 = some f)
    (hs : samePair f e = true) : p = q := by
  obtain ⟨hij, ri, rj, hgi, hgj, hea, heb, -⟩ := pairDecision_some_shape hp
  obtain ⟨hij2, ri2, rj2, hgi2, hgj2, hfa, hfb, -⟩ := pairDecision_some_shape hq
  rcases samePair_iff.mp hs with ⟨h1, h2⟩ | ⟨h1, h2⟩
  · have hii : q.1 = p.1 := by
      by_contra hne
      exact ids_getElem_inj hids hgi2 hgi hne (by rw [← hfa, ← hea, h1])
    have hjj : q.2 = p.2 := by
      by_contra hne
      exact ids_getElem_inj hids hgj2 hgj hne (by rw [← hfb, ← heb, h2])
    exact Prod.ext hii.symm hjj.symm
  · exfalso
    have hii : q.1 = p.2 := by
      by_contra hne
      exact ids_getElem_inj hids hgi2 hgj hne (by rw [← hfa, ← heb, h1])
    have hjj : q.2 = p.1 := by
      by_contra hne
      exact ids_getElem_inj hids hgj2 hgi hne (by rw [← hfb, ← hea, h2])
    omega

lemma pairSeq_nodup {gdf : List Region} {geo : GeoOracle}
    (hcand : ∀ i, (geo.cand i).Nodup) : (pairSeq gdf geo).Nodup := by
  rw [pairSeq]
  refine List.nodup_flatMap.mpr ⟨?_, ?_⟩
  · intro i _
    exact (hcand i).map (fun a b hab => by
      have := Prod.mk.injEq .. ▸ hab
      exact this.2)
  · refine (List.nodup_range _).pairwise_of_forall_ne ?_
    intro i hi j hj hne z hzi hzj
    obtain ⟨a, -, ha⟩ := List.mem_map.mp hzi
    obtain ⟨b, -, hb⟩ := List.mem_map.mp hzj
    rw [← ha] at hb
    have := (Prod.mk.injEq .. ▸ hb).1
    exact hne this.symm

lemma processPairs_foldl_edges {gdf : List Region} {geo : GeoOracle} {m t : ℚ}
    (hids : (gdf.map Region.id).Nodup) :
    ∀ {ps : List (Nat × Nat)} {G0 : Graph},
      ps.Nodup →
      (∀ f ∈ G0.edges, ∀ p ∈ ps, ∀ e, pairDecision gdf geo m t p.1 p.2 = some e →
        ¬ samePair f e = true) →
      (ps.foldl (fun G p => processPair gdf geo m t G p.1 p.2) G0).edges
        = G0.edges ++ ps.filterMap (fun p => pairDecision gdf geo m t p.1 p.2) := by
  intro ps
  induction ps with
  | nil =>
    intro G0 _ _
    simp
  | cons p ps ih =>
    intro G0 hnd hstart
    rw [List.foldl_cons, List.filterMap_cons]
    have hnd2 : ps.Nodup := (List.nodup_cons.mp hnd).2
    have hpn : p ∉ ps := (List.nodup_cons.mp hnd).1
    cases hdec : pairDecision gdf geo m t p.1 p.2 with
    | none =>
      have hpp : processPair gdf geo m t G0 p.1 p.2 = G0 := by
        rw [processPair, hdec]
      rw [hpp]
      exact ih hnd2 (fun f hf q hq e he =>
        hstart f hf q (List.mem_cons_of_mem p hq) e he)
    | some e =>
      have hpp : processPair gdf geo m t G0 p.1 p.2 = G0.addEdge e := by
        rw [processPair, hdec]
      have hfresh : ∀ f ∈ G0.edges, ¬ samePair f e = true :=
        fun f hf => hstart f hf p (List.mem_cons_self p ps) e hdec
      have hG1 : (G0.addEdge e).edges = G0.edges ++ [e] := addEdge_fresh hfresh
      rw [hpp, ih hnd2 ?_, hG1, List.append_assoc]
      · rfl
      · intro f hf q hq e2 he2
        rw [hG1] at hf
        rcases List.mem_append.mp hf with h2 | h2
        · exact hstart f h2 q (List.mem_cons_of_mem p hq) e2 he2
        · rw [List.mem_singleton.mp h2]
          intro hs
          have hpq : q = p := decisions_samePair_imp hids he2 hdec hs
          exact hpn (hpq ▸ hq)

lemma nested_foldl_flat {geo : GeoOracle} (pp : Graph → Nat → Nat → Graph) :
    ∀ (xs : List Nat) (G0 : Graph),
      xs.foldl (fun G i => (geo.cand i).foldl (fun G j => pp G i j) G) G0
        = (xs.flatMap (fun i => (geo.cand i).map (fun j => (i, j)))).foldl
            (fun G p => pp G p.1 p.2) G0 := by
  intro xs
  induction xs with
  | nil => intro G0; rfl
  | cons x xs ih =>
    intro G0
    rw [List.foldl_cons, List.flatMap_cons, List.foldl_append, ih, List.foldl_map]

lemma classifier_foldl_flat (gdf : List Region) (geo : GeoOracle) (m t : ℚ) :
    classifierGraph gdf geo m t
      = (pairSeq gdf geo).foldl
          (fun G p => processPair gdf geo m t G p.1 p.2) (initNodes gdf) := by
  rw [classifierGraph, pairSeq]
  exact nested_foldl_flat (fun G i j => processPair gdf geo m t G i j) (List.range gdf.length)
    (initNodes gdf)

lemma classifier_edges_eq {gdf : List Region} {geo : GeoOracle} {m t : ℚ}
    (hids : (gdf.map Region.id).Nodup) (hcand : ∀ i, (geo.cand i).Nodup) :
    (classifierGraph gdf geo m t).edges
      = (pairSeq gdf geo).filterMap (fun p => pairDecision gdf geo m t p.1 p.2) := by
  rw [classifier_foldl_flat]
  rw [processPairs_foldl_edges hids (pairSeq_nodup hcand) ?_]
  · rw [initNodes_edges]
    rfl
  · intro f hf
    rw [initNodes_edges] at hf
    simp at hf

lemma processPairs_foldl_nodes {gdf : List Region} {geo : GeoOracle} {m t : ℚ} :
    ∀ {ps : List (Nat × Nat)} {G0 : Graph},
      (∀ r ∈ gdf, r.id ∈ G0.nodes) →
      (ps.foldl (fun G p => processPair gdf geo m t G p.1 p.2) G0).nodes = G0.nodes := by
  intro ps
  induction ps with
  | nil => intro G0 _; rfl
  | cons p ps ih =>
    intro G0 hI
    rw [List.foldl_cons]
    cases hdec : pairDecision gdf geo m t p.1 p.2 with
    | none =>
      have hpp : processPair gdf geo m t G0 p.1 p.2 = G0 := by
        rw [processPair, hdec]
      rw [hpp]
      exact ih hI
    | some e =>
      have hpp : processPair gdf geo m t G0 p.1 p.2 = G0.addEdge e := by
        rw [processPair, hdec]
      obtain ⟨-, ri, rj, hgi, hgj, hea, heb, -⟩ := pairDecision_some_shape hdec
      have hnodes : (G0.addEdge e).nodes = G0.nodes :=
        addEdge_nodes_eq (hea ▸ hI ri (List.getElem?_mem hgi))
          (heb ▸ hI rj (List.getElem?_mem hgj))
      rw [hpp, ih ?_, hnodes]
      intro r hr
      rw [hnodes]
      exact hI r hr

lemma classifier_nodes (gdf : List Region) (geo : GeoOracle) (m t : ℚ) :
    (classifierGraph gdf geo m t).nodes = (initNodes gdf).nodes := by
  rw [classifier_foldl_flat]
  refine processPairs_foldl_nodes ?_
  intro r hr
  exact initNodes_mem.mpr ⟨r, hr, rfl⟩

lemma classifier_nodes_mem {gdf : List Region} {geo : GeoOracle} {m t : ℚ} {x : String} :
    x ∈ (classifierGraph gdf geo m t).nodes ↔ ∃ r ∈ gdf, r.id = x := by
  rw [classifier_nodes]
  exact initNodes_mem

lemma classifier_nodup (gdf : List Region) (geo : GeoOracle) (m t : ℚ) :
    (classifierGraph gdf geo m t).nodes.Nodup := by
  rw [classifier_nodes]
  exact initNodes_nodup gdf

lemma processPairs_foldl_wf {gdf : List Region} {geo : GeoOracle} {m t : ℚ} :
    ∀ {ps : List (Nat × Nat)} {G0 : Graph},
      Wellformed G0 →
      Wellformed (ps.foldl (fun G p => processPair gdf geo m t G p.1 p.2) G0) := by
  intro ps
  induction ps with
  | nil => intro G0 hw; exact hw
  | cons p ps ih =>
    intro G0 hw
    rw [List.foldl_cons]
    refine ih ?_
    rw [processPair]
    cases pairDecision gdf geo m t p.1 p.2 with
    | none => exact hw
    | some e => exact addEdge_wf hw e

lemma classifier_wf (gdf : List Region) (geo : GeoOracle) (m t : ℚ) :
    Wellformed (classifierGraph gdf geo m t) := by
  rw [classifier_foldl_flat]
  exact processPairs_foldl_wf (initNodes_wf gdf)

lemma pairDecision_antitone {gdf : List Region} {geo : GeoOracle} {m1 m2 t : ℚ}
    (h12 : m1 ≤ m2) {i j : Nat} {e : Edge} {tr : Tier}
    (h : pairDecision gdf geo m2 t i j = some e) (ht : e.tier = tr) :
    ∃ e', pairDecision gdf geo m1 t i j = some e' ∧ e'.tier = tr := by
  rw [pairDecision] at h ⊢
  split at h
  · cases h
  next hji =>
    rw [if_neg hji]
    split at h
    next ri rj hgi hgj =>
      rw [classifyPair] at h ⊢
      split at h
      next hint =>
        rw [if_pos hint]
        split at h
        next hlen =>
          cases h
          rw [if_pos (le_trans h12 hlen)]
          exact ⟨_, rfl, ht⟩
        · cases h
      next hint =>
        rw [if_neg hint]
        split at h
        next hdist =>
          rw [if_pos hdist]
          split at h
          next hlen =>
            cases h
            rw [if_pos (le_trans h12 hlen)]
            exact ⟨_, rfl, ht⟩
          · cases h
        next hdist =>
          rw [if_neg hdist]
          cases h
    next => cases h

lemma countP_filterMap_mono {α β : Type} (p : β → Bool) (d1 d2 : α → Option β)
    (h : ∀ q e, d2 q = some e → p e = true → ∃ e', d1 q = some e' ∧ p e' = true) :
    ∀ ps : List α, (ps.filterMap d2).countP p ≤ (ps.filterMap d1).countP p := by
  intro ps
  induction ps with
  | nil => simp
  | cons q ps ih =>
    rw [List.filterMap_cons, List.filterMap_cons]
    cases hd2 : d2 q with
    | none =>
      dsimp only
      cases hd1 : d1 q with
      | none => dsimp only; exact ih
      | some e1 =>
        dsimp only
        rw [List.countP_cons]
        omega
    | some e2 =>
      dsimp only
      by_cases hp2 : p e2 = true
      · obtain ⟨e1, hd1, hp1⟩ := h q e2 hd2 hp2
        rw [hd1]
        dsimp only
        rw [List.countP_cons, List.countP_cons, hp1, hp2]
        omega
      · have hp2f : p e2 = false := Bool.eq_false_iff.mpr hp2
        cases hd1 : d1 q with
        | none =>
          dsimp only
          rw [List.countP_cons, hp2f]
          simp only [Bool.false_eq_true, if_false]
          omega
        | some e1 =>
          dsimp only
          rw [List.countP_cons, List.countP_cons, hp2f]
          simp only [Bool.false_eq_true, if_false]
          have := List.countP_cons p e1 (List.filterMap d1 ps)
          omega

lemma countP_append_bridge {bs : List Edge} (htier : ∀ e ∈ bs, e.tier = Tier.bridge)
    {E : List Edge} {tr : Tier} (htr : tr ≠ Tier.bridge) :
    (E ++ bs).countP (fun e => e.tier == tr) = E.countP (fun e => e.tier == tr) := by
  rw [List.countP_append]
  have : bs.countP (fun e => e.tier == tr) = 0 := by
    rw [List.countP_eq_zero]
    intro e he
    rw [htier e he]
    intro hc
    exact htr (beq_iff_eq.mp hc).symm
  omega

lemma build_success_shape {gdf : List Region} {geo : GeoOracle} {f : ℚ}
    {rep : String → Option Point} {Gf : Graph}
    (h : build_precinct_adjacency_graph gdf geo f rep = some Gf) :
    Gf = classifierGraph gdf geo (f * FEET_TO_METERS) (200 * FEET_TO_METERS) ∨
    ∃ added L2, connect_components_to_largest rep
      (classifierGraph gdf geo (f * FEET_TO_METERS) (200 * FEET_TO_METERS))
        = some (Gf, added, L2) := by
  rw [build_precinct_adjacency_graph] at h
  by_cases hcomp : 1 < (componentsOf
      (classifierGraph gdf geo (f * FEET_TO_METERS) (200 * FEET_TO_METERS)).nodes
      (classifierGraph gdf geo (f * FEET_TO_METERS) (200 * FEET_TO_METERS)).edges).length
  · rw [if_pos hcomp] at h
    cases hconn : connect_components_to_largest rep
        (classifierGraph gdf geo (f * FEET_TO_METERS) (200 * FEET_TO_METERS)) with
    | none => rw [hconn] at h; cases h
    | some r =>
      obtain ⟨G2, added, L2⟩ := r
      rw [hconn] at h
      dsimp only at h
      cases hsort : sortByLenDesc (componentsOf G2.nodes G2.edges) with
      | nil => rw [hsort] at h; cases h
      | cons largest others =>
        rw [hsort] at h
        dsimp only at h
        split at h
        · cases h
          exact Or.inr ⟨added, L2, rfl⟩
        · cases h
  · rw [if_neg hcomp] at h
    dsimp only at h
    cases hsort : sortByLenDesc (componentsOf
        (classifierGraph gdf geo (f * FEET_TO_METERS) (200 * FEET_TO_METERS)).nodes
        (classifierGraph gdf geo (f * FEET_TO_METERS) (200 * FEET_TO_METERS)).edges) with
    | nil => rw [hsort] at h; cases h
    | cons largest others =>
      rw [hsort] at h
      dsimp only at h
      split at h
      · cases h
        exact Or.inl rfl
      · cases h

/-- C1 (amended): for every input graph whose repair run completes, if every
pending (non-largest) component contains at least one node with a usable
representative point, then after `connect_components_to_largest` the graph
has exactly one connected component. (As frozen, the claim also covered
pending components with no usable representative point; the code silently
skips those — see the counterexample — so the claim holds only under this
hypothesis.) -/
theorem C1_repair_single_component {rep : String → Option Point} {G G' : Graph}
    {added : Nat} {L' : List String}
    (hn : G.nodes.Nodup) (hw : Wellformed G) (hne : G.nodes ≠ [])
    (hrep : ∀ c ∈ (sortByLenDesc (componentsOf G.nodes G.edges)).tail,
      ∃ x ∈ c, (rep x).isSome)
    (hsucc : connect_components_to_largest rep G = some (G', added, L')) :
    (componentsOf G'.nodes G'.edges).length = 1 :=
  connect_one_component hn hw hne hrep hsucc

/-- Witness for C1 at a concrete disconnected input whose pending component
has a usable representative point: the repaired graph has one component. -/
theorem C1_repair_single_component_witness :
    (componentsOf ["A", "B"]
      [{ a := "B", b := "A", tier := Tier.bridge, w := 25 }]).length = 1 :=
  @C1_repair_single_component
    (fun s => if s = "A" then some ((0:ℤ), (0:ℤ)) else if s = "B" then some (3, 4) else none)
    { nodes := ["A", "B"], edges := [] }
    { nodes := ["A", "B"], edges := [{ a := "B", b := "A", tier := Tier.bridge, w := 25 }] }
    1 ["A", "B"]
    (by decide) (by intro e he; cases he) (by decide) (by decide) (by decide)

/-- C1 counterexample: a pending component whose only node has no usable
representative point is silently skipped (precinctGraph.py line 145-146),
so the repair phase returns successfully with the graph still split in two
connected components, not one. -/
theorem C1_counterexample :
    (connect_components_to_largest
      (fun s => if s = "A" then some ((0:ℤ), (0:ℤ))
        else if s = "B" then some (0, 1) else none)
      { nodes := ["A", "B", "C"],
        edges := [{ a := "A", b := "B", tier := Tier.strict, w := 100 }] }).map
      (fun r => ((componentsOf r.1.nodes r.1.edges).length, r.2.1))
      = some (2, 0) ∧
    (connect_components_to_largest
      (fun s => if s = "A" then some ((0:ℤ), (0:ℤ))
        else if s = "B" then some (0, 1) else none)
      { nodes := ["A", "B", "C"],
        edges := [{ a := "A", b := "B", tier := Tier.strict, w := 100 }] }).map
      (fun r => (componentsOf r.1.nodes r.1.edges).length)
      ≠ some 1 := by
  decide

/-- C3 (amended): when every non-largest component contains at least one
node with a usable representative point and the repair run completes, the
number of bridge edges added (the `added` counter of
`connect_components_to_largest`) equals the number of connected components
before repair minus one. (As frozen, the claim held this for every input;
a component with no usable representative point is skipped without a
bridge — see the counterexample.) -/
theorem C3_bridge_count {rep : String → Option Point} {G G' : Graph} {added : Nat}
    {L' : List String}
    (hrep : ∀ c ∈ (sortByLenDesc (componentsOf G.nodes G.edges)).tail,
      ∃ x ∈ c, (rep x).isSome)
    (hsucc : connect_components_to_largest rep G = some (G', added, L')) :
    added = (componentsOf G.nodes G.edges).length - 1 :=
  connect_count hrep hsucc

/-- Witness for C3 at a concrete three-component input with usable
representative points: 2 bridges are added for 3 components. -/
theorem C3_bridge_count_witness :
    (2 : Nat) = (componentsOf ["A", "B", "C"] []).length - 1 :=
  @C3_bridge_count
    (fun s => if s = "A" then some ((0:ℤ), (0:ℤ))
      else if s = "B" then some (3, 4) else if s = "C" then some (6, 8) else none)
    { nodes := ["A", "B", "C"], edges := [] }
    { nodes := ["A", "B", "C"],
      edges := [{ a := "B", b := "A", tier := Tier.bridge, w := 25 },
        { a := "C", b := "B", tier := Tier.bridge, w := 25 }] }
    2 ["A", "B", "C"]
    (by decide) (by decide)

/-- C3 counterexample: one pending component whose node has no usable
representative point — the repairer completes having added 0 bridge edges,
not (2 components − 1) = 1. -/
theorem C3_counterexample :
    (connect_components_to_largest
      (fun s => if s = "X" then some ((0:ℤ), (0:ℤ)) else none)
      { nodes := ["X", "Y"], edges := [] }).map (fun r => r.2.1)
      ≠ some ((componentsOf ["X", "Y"] ([] : List Edge)).length - 1) := by
  decide

/-- C4: the code is wrong where the claim (and the spec) require an error.
At a concrete input whose isolated region "E" has no usable representative
point, `connect_components_to_largest` returns successfully, having
silently skipped the component (precinctGraph.py lines 145-146) — no error
names "E" and the graph is still disconnected (2 components). The full
builder then dies, but only with an accidental `TypeError`
(`float(None)`, line 306) in the diagnostics that names no region id,
modelled by the `none` result of `build_precinct_adjacency_graph`. -/
theorem C4_silent_skip :
    connect_components_to_largest
        (fun s => if s = "D" then some ((0:ℤ), (0:ℤ)) else none)
        { nodes := ["D", "E"], edges := [] }
      = some ({ nodes := ["D", "E"], edges := [] }, 0, ["D"]) ∧
    (componentsOf ["D", "E"] ([] : List Edge)).length = 2 ∧
    build_precinct_adjacency_graph [{ id := "D" }, { id := "E" }]
        { intersects := fun _ _ => false, boundLen := fun _ _ => 0,
          dist := fun _ _ => 1000, tolLen := fun _ _ => 0,
          cand := fun _ => [0, 1] }
        200 (fun s => if s = "D" then some ((0:ℤ), (0:ℤ)) else none)
      = none := by
  refine ⟨by decide, by decide, ?_⟩
  with_unfolding_all decide

/-- C5 (amended): after adding a bridge edge the repairer appends only the
chosen endpoint `a` to the accumulating main component — not the whole
pending component (precinctGraph.py lines 155-156). Hence the final
`largest_list` is the original largest component followed by exactly the
`a` endpoints of the added bridges, and each bridge's `b` endpoint was
selected among the original largest component plus the previously bridged
endpoints only (`bridgeChain`). -/
theorem C5_absorb_endpoint_only {rep : String → Option Point} {G G' : Graph}
    {added : Nat} {L' : List String}
    (h1 : 1 < (componentsOf G.nodes G.edges).length)
    (hsucc : connect_components_to_largest rep G = some (G', added, L')) :
    ∃ largest others bs,
      sortByLenDesc (componentsOf G.nodes G.edges) = largest :: others ∧
      G' = bs.foldl Graph.addEdge G ∧
      added = bs.length ∧
      L' = largest ++ bs.map Edge.a ∧
      (∀ e ∈ bs, e.tier = Tier.bridge) ∧
      bridgeChain largest bs := by
  rw [connect_components_to_largest] at hsucc
  rw [if_neg (by omega)] at hsucc
  cases hsort : sortByLenDesc (componentsOf G.nodes G.edges) with
  | nil =>
    exfalso
    have := sortByLenDesc_length (componentsOf G.nodes G.edges)
    rw [hsort] at this
    simp at this
    omega
  | cons largest others =>
    rw [hsort] at hsucc
    dsimp only at hsucc
    obtain ⟨bs, hG, hL, hadd, htier, hchain⟩ := connectLoop_structure hsucc
    refine ⟨largest, others, bs, rfl, hG, ?_, hL, htier, hchain⟩
    omega

/-- Witness for C5 at a concrete three-component input. -/
theorem C5_absorb_endpoint_only_witness :
    ∃ largest others bs,
      sortByLenDesc (componentsOf ["M1", "M2", "M3", "P", "Q", "R"]
        [{ a := "M1", b := "M2", tier := Tier.strict, w := 1000 },
         { a := "M2", b := "M3", tier := Tier.strict, w := 1000 },
         { a := "P", b := "Q", tier := Tier.strict, w := 1000 }]) = largest :: others ∧
      { nodes := ["M1", "M2", "M3", "P", "Q", "R"],
        edges := [{ a := "M1", b := "M2", tier := Tier.strict, w := 1000 },
         { a := "M2", b := "M3", tier := Tier.strict, w := 1000 },
         { a := "P", b := "Q", tier := Tier.strict, w := 1000 },
         { a := "P", b := "M1", tier := Tier.bridge, w := 100 },
         { a := "R", b := "P", tier := Tier.bridge, w := 36 }] }
        = bs.foldl Graph.addEdge
            { nodes := ["M1", "M2", "M3", "P", "Q", "R"],
              edges := [{ a := "M1", b := "M2", tier := Tier.strict, w := 1000 },
               { a := "M2", b := "M3", tier := Tier.strict, w := 1000 },
               { a := "P", b := "Q", tier := Tier.strict, w := 1000 }] } ∧
      (2 : Nat) = bs.length ∧
      ["M1", "M2", "M3", "P", "R"] = largest ++ bs.map Edge.a ∧
      (∀ e ∈ bs, e.tier = Tier.bridge) ∧
      bridgeChain largest bs :=
  @C5_absorb_endpoint_only
    (fun s => if s = "M1" then some ((0:ℤ), (0:ℤ))
      else if s = "M2" then some (0, 1)
      else if s = "M3" then some (0, 2)
      else if s = "P" then some (10, 0)
      else if s = "Q" then some (10, 5)
      else if s = "R" then some (10, 6) else none)
    { nodes := ["M1", "M2", "M3", "P", "Q", "R"],
      edges := [{ a := "M1", b := "M2", tier := Tier.strict, w := 1000 },
       { a := "M2", b := "M3", tier := Tier.strict, w := 1000 },
       { a := "P", b := "Q", tier := Tier.strict, w := 1000 }] }
    { nodes := ["M1", "M2", "M3", "P", "Q", "R"],
      edges := [{ a := "M1", b := "M2", tier := Tier.strict, w := 1000 },
       { a := "M2", b := "M3", tier := Tier.strict, w := 1000 },
       { a := "P", b := "Q", tier := Tier.strict, w := 1000 },
       { a := "P", b := "M1", tier := Tier.bridge, w := 100 },
       { a := "R", b := "P", tier := Tier.bridge, w := 36 }] }
    2 ["M1", "M2", "M3", "P", "R"]
    (by decide) (by decide)

/-- C5 counterexample: with main component {M1,M2,M3}, pending components
{P,Q} (bridged via P) and {R}: after bridging {P,Q}, node Q is NOT in the
accumulating main node set (only the endpoint P was added), and R's bridge
is chosen to P even though Q's representative point is strictly closer to
R's — so pending components cannot select among all nodes added so far,
refuting the claim as stated. -/
theorem C5_counterexample :
    sortByLenDesc (componentsOf ["M1", "M2", "M3", "P", "Q", "R"]
        [{ a := "M1", b := "M2", tier := Tier.strict, w := 1000 },
         { a := "M2", b := "M3", tier := Tier.strict, w := 1000 },
         { a := "P", b := "Q", tier := Tier.strict, w := 1000 }])
      = [["M1", "M2", "M3"], ["P", "Q"], ["R"]] ∧
    connect_components_to_largest
      (fun s => if s = "M1" then some ((0:ℤ), (0:ℤ))
        else if s = "M2" then some (0, 1)
        else if s = "M3" then some (0, 2)
        else if s = "P" then some (10, 0)
        else if s = "Q" then some (10, 5)
        else if s = "R" then some (10, 6) else none)
      { nodes := ["M1", "M2", "M3", "P", "Q", "R"],
        edges := [{ a := "M1", b := "M2", tier := Tier.strict, w := 1000 },
         { a := "M2", b := "M3", tier := Tier.strict, w := 1000 },
         { a := "P", b := "Q", tier := Tier.strict, w := 1000 }] }
      = some
          ({ nodes := ["M1", "M2", "M3", "P", "Q", "R"],
             edges := [{ a := "M1", b := "M2", tier := Tier.strict, w := 1000 },
               { a := "M2", b := "M3", tier := Tier.strict, w := 1000 },
               { a := "P", b := "Q", tier := Tier.strict, w := 1000 },
               { a := "P", b := "M1", tier := Tier.bridge, w := 100 },
               { a := "R", b := "P", tier := Tier.bridge, w := 36 }] },
           2, ["M1", "M2", "M3", "P", "R"]) ∧
    "Q" ∈ ["P", "Q"] ∧
    "Q" ∉ ["M1", "M2", "M3", "P", "R"] ∧
    dist2 ((10:ℤ), (6:ℤ)) (10, 5) < dist2 ((10:ℤ), (6:ℤ)) (10, 0) := by
  decide

/-- C2: for every input region set, whenever
`build_precinct_adjacency_graph` produces a graph, its node set is exactly
the set of input region ids — no node is added and no node is omitted,
including regions that acquired no strict or tolerance edge. -/
theorem C2_node_preservation {gdf : List Region} {geo : GeoOracle} {f : ℚ}
    {rep : String → Option Point} {Gf : Graph} {x : String}
    (hsucc : build_precinct_adjacency_graph gdf geo f rep = some Gf) :
    x ∈ Gf.nodes ↔ ∃ r ∈ gdf, r.id = x := by
  rcases build_success_shape hsucc with heq | ⟨added, L2, hconn⟩
  · rw [heq]
    exact classifier_nodes_mem
  · rw [connect_nodes_eq hconn]
    exact classifier_nodes_mem

/-- Witness for C2 at a concrete two-region input: the output node set is
exactly the two input ids. -/
theorem C2_node_preservation_witness :
    ("A" ∈ Graph.nodes
        { nodes := ["A", "B"],
          edges := [{ a := "A", b := "B", tier := Tier.strict, w := 100 }] }
      ↔ ∃ r ∈ [({ id := "A" } : Region), { id := "B" }], r.id = "A") :=
  @C2_node_preservation [{ id := "A" }, { id := "B" }]
    { intersects := fun i j => i == 0 && j == 1, boundLen := fun _ _ => 100,
      dist := fun _ _ => 0, tolLen := fun _ _ => 0, cand := fun _ => [0, 1] }
    200 (fun _ => some ((0:ℤ), (0:ℤ)))
    { nodes := ["A", "B"], edges := [{ a := "A", b := "B", tier := Tier.strict, w := 100 }] }
    "A" (by with_unfolding_all decide)

/-- C9: the code is wrong where the claim (and the spec §7) require a
`ParameterError`. `build_precinct_adjacency_graph` performs no validation
of its configuration: a negative `min_shared_boundary_feet = -1` is
accepted and the full build runs to completion — a zero-length shared
boundary then satisfies the negative threshold and yields a strict edge —
instead of the configuration being rejected before any processing. -/
theorem C9_no_parameter_validation :
    build_precinct_adjacency_graph [{ id := "A" }, { id := "B" }]
        { intersects := fun i j => i == 0 && j == 1, boundLen := fun _ _ => 0,
          dist := fun _ _ => 0, tolLen := fun _ _ => 0, cand := fun _ => [0, 1] }
        (-1) (fun _ => some ((0:ℤ), (0:ℤ)))
      = some
          { nodes := ["A", "B"],
            edges := [{ a := "A", b := "B", tier := Tier.strict, w := 0 }] } ∧
    (-1 : ℚ) ≤ 0 := by
  constructor
  · with_unfolding_all decide
  · norm_num

/-- C6 (amended): for every candidate pair whose geometries intersect, a
strict-tier edge (recording the boundary-intersection length) is present in
the output graph iff that length is at least the converted
`min_shared_boundary` threshold, and when below the threshold no strict or
tolerance edge is emitted for that pair — but the connectivity repairer may
still add a `bridge`-tier edge between exactly that pair (see the
counterexample), so "no edge of any tier" does not hold as frozen. -/
theorem C6_strict_iff {gdf : List Region} {geo : GeoOracle} {f : ℚ}
    {rep : String → Option Point} {Gf : Graph} {i j : Nat}
    (hids : (gdf.map Region.id).Nodup) (hcand : ∀ k, (geo.cand k).Nodup)
    (hi : i < gdf.length) (hj : j < gdf.length) (hij : i < j) (hjc : j ∈ geo.cand i)
    (hint : geo.intersects i j = true)
    (hsucc : build_precinct_adjacency_graph gdf geo f rep = some Gf) :
    ((∃ e ∈ Gf.edges, e.a = gdf[i].id ∧ e.b = gdf[j].id ∧
        e.tier = Tier.strict ∧ e.w = geo.boundLen i j)
      ↔ f * FEET_TO_METERS ≤ geo.boundLen i j)
    ∧ (¬ f * FEET_TO_METERS ≤ geo.boundLen i j →
        ∀ e ∈ Gf.edges,
          (e.a = gdf[i].id ∧ e.b = gdf[j].id) ∨ (e.a = gdf[j].id ∧ e.b = gdf[i].id) →
          e.tier = Tier.bridge) := by
  obtain ⟨bs, hbs, htier⟩ : ∃ bs,
      Gf.edges = (classifierGraph gdf geo (f * FEET_TO_METERS)
        (200 * FEET_TO_METERS)).edges ++ bs ∧ ∀ e ∈ bs, e.tier = Tier.bridge := by
    rcases build_success_shape hsucc with heq | ⟨added, L2, hconn⟩
    · exact ⟨[], by rw [heq, List.append_nil], by simp⟩
    · exact connect_fresh (classifier_nodup gdf geo _ _) (classifier_wf gdf geo _ _) hconn
  have hed := @classifier_edges_eq gdf geo (f * FEET_TO_METERS) (200 * FEET_TO_METERS)
    hids hcand
  have hgi : gdf[i]? = some gdf[i] := List.getElem?_eq_getElem hi
  have hgj : gdf[j]? = some gdf[j] := List.getElem?_eq_getElem hj
  have hmemSeq : (i, j) ∈ pairSeq gdf geo := by
    rw [pairSeq]
    exact List.mem_flatMap.mpr ⟨i, List.mem_range.mpr hi, List.mem_map.mpr ⟨j, hjc, rfl⟩⟩
  have hdec_pos : f * FEET_TO_METERS ≤ geo.boundLen i j →
      pairDecision gdf geo (f * FEET_TO_METERS) (200 * FEET_TO_METERS) i j
        = some
          { a := gdf[i].id, b := gdf[j].id, tier := Tier.strict,
            w := geo.boundLen i j } := by
    intro hthr
    rw [pairDecision, if_neg (by omega), hgi, hgj]
    dsimp only
    rw [classifyPair, if_pos hint, if_pos hthr]
  have hdec_neg : ¬ f * FEET_TO_METERS ≤ geo.boundLen i j →
      pairDecision gdf geo (f * FEET_TO_METERS) (200 * FEET_TO_METERS) i j = none := by
    intro hthr
    rw [pairDecision, if_neg (by omega), hgi, hgj]
    dsimp only
    rw [classifyPair, if_pos hint, if_neg hthr]
  have huniq : ∀ q ∈ pairSeq gdf geo, ∀ e : Edge,
      pairDecision gdf geo (f * FEET_TO_METERS) (200 * FEET_TO_METERS) q.1 q.2 = some e →
      ((e.a = gdf[i].id ∧ e.b = gdf[j].id) ∨ (e.a = gdf[j].id ∧ e.b = gdf[i].id)) →
      q = (i, j) := by
    intro q _ e hdq hmatch
    obtain ⟨hqlt, rq1, rq2, hgq1, hgq2, hea, heb, -⟩ := pairDecision_some_shape hdq
    rcases hmatch with ⟨hm1, hm2⟩ | ⟨hm1, hm2⟩
    · have hq1 : q.1 = i := by
        by_contra hne
        exact ids_getElem_inj hids hgq1 hgi hne (by rw [← hea, hm1])
      have hq2 : q.2 = j := by
        by_contra hne
        exact ids_getElem_inj hids hgq2 hgj hne (by rw [← heb, hm2])
      exact Prod.ext hq1 hq2
    · exfalso
      have hq1 : q.1 = j := by
        by_contra hne
        exact ids_getElem_inj hids hgq1 hgj hne (by rw [← hea, hm1])
      have hq2 : q.2 = i := by
        by_contra hne
        exact ids_getElem_inj hids hgq2 hgi hne (by rw [← heb, hm2])
      omega
  constructor
  · constructor
    · rintro ⟨e, he, hea, heb, het, -⟩
      rw [hbs] at he
      rcases List.mem_append.mp he with he2 | he2
      · rw [hed] at he2
        obtain ⟨q, hq, hdq⟩ := List.mem_filterMap.mp he2
        have hqe : q = (i, j) := huniq q hq e hdq (Or.inl ⟨hea, heb⟩)
        rw [hqe] at hdq
        by_cases hthr : f * FEET_TO_METERS ≤ geo.boundLen i j
        · exact hthr
        · rw [hdec_neg hthr] at hdq
          cases hdq
      · rw [htier e he2] at het
        cases het
    · intro hthr
      refine ⟨
        { a := gdf[i].id, b := gdf[j].id, tier := Tier.strict,
          w := geo.boundLen i j }, ?_, rfl, rfl, rfl, rfl⟩
      rw [hbs]
      refine List.mem_append_left _ ?_
      rw [hed]
      exact List.mem_filterMap.mpr ⟨(i, j), hmemSeq, hdec_pos hthr⟩
  · intro hthr e he hmatch
    rw [hbs] at he
    rcases List.mem_append.mp he with he2 | he2
    · exfalso
      rw [hed] at he2
      obtain ⟨q, hq, hdq⟩ := List.mem_filterMap.mp he2
      have hqe : q = (i, j) := huniq q hq e hdq hmatch
      rw [hqe] at hdq
      rw [hdec_neg hthr] at hdq
      cases hdq
    · exact htier e he2

/-- Witness for C6 at a concrete intersecting pair whose shared boundary
(100 m) exceeds the converted 200 ft threshold: a strict edge recording
that length is present in the output. -/
theorem C6_strict_iff_witness :
    ∃ e ∈ Graph.edges
      { nodes := ["A", "B"],
        edges := [{ a := "A", b := "B", tier := Tier.strict, w := 100 }] },
      e.a = "A" ∧ e.b = "B" ∧ e.tier = Tier.strict ∧ e.w = 100 := by
  have h := @C6_strict_iff [{ id := "A" }, { id := "B" }]
    { intersects := fun i j => i == 0 && j == 1, boundLen := fun _ _ => 100,
      dist := fun _ _ => 0, tolLen := fun _ _ => 0,
      cand := fun k => if k == 0 then [1] else [] }
    200 (fun _ => some ((0:ℤ), (0:ℤ)))
    { nodes := ["A", "B"],
      edges := [{ a := "A", b := "B", tier := Tier.strict, w := 100 }] }
    0 1 (by decide) (by intro k; dsimp only; split <;> decide)
    (by decide) (by decide) (by decide) (by decide) (by decide)
    (by with_unfolding_all decide)
  exact h.1.mpr (by norm_num [FEET_TO_METERS])

/-- C6 counterexample: two regions that intersect with a zero-length
boundary intersection (a corner touch), below the 200 ft threshold — yet
the output graph does contain an edge for exactly that pair: the
connectivity repairer adds a `bridge`-tier edge between them, so "no edge
of any tier is emitted for that pair" is false as frozen. -/
theorem C6_counterexample :
    build_precinct_adjacency_graph [{ id := "A" }, { id := "B" }]
        { intersects := fun i j => i == 0 && j == 1, boundLen := fun _ _ => 0,
          dist := fun _ _ => 0, tolLen := fun _ _ => 0,
          cand := fun k => if k == 0 then [1] else [] }
        200 (fun s => if s = "A" then some ((0:ℤ), (0:ℤ))
          else if s = "B" then some (3, 0) else none)
      = some
          { nodes := ["A", "B"],
            edges := [{ a := "B", b := "A", tier := Tier.bridge, w := 9 }] } ∧
    (GeoOracle.intersects
      { intersects := fun i j => i == 0 && j == 1, boundLen := fun _ _ => 0,
        dist := fun _ _ => 0, tolLen := fun _ _ => 0,
        cand := fun k => if k == 0 then [1] else [] } 0 1 = true) ∧
    ¬ ((200 : ℚ) * FEET_TO_METERS ≤ 0) := by
  refine ⟨?_, by decide, by norm_num [FEET_TO_METERS]⟩
  with_unfolding_all decide

/-- C7: for a fixed input region set and geometry, increasing
`min_shared_boundary_feet` never increases the number of strict edges nor
the number of tolerance edges of the built graph. -/
theorem C7_threshold_monotonicity {gdf : List Region} {geo : GeoOracle} {f1 f2 : ℚ}
    {rep1 rep2 : String → Option Point} {G1 G2 : Graph}
    (hids : (gdf.map Region.id).Nodup) (hcand : ∀ k, (geo.cand k).Nodup)
    (h12 : f1 ≤ f2)
    (hb1 : build_precinct_adjacency_graph gdf geo f1 rep1 = some G1)
    (hb2 : build_precinct_adjacency_graph gdf geo f2 rep2 = some G2) :
    strictCount G2 ≤ strictCount G1 ∧ tolCount G2 ≤ tolCount G1 := by
  have hm : f1 * FEET_TO_METERS ≤ f2 * FEET_TO_METERS := by
    refine mul_le_mul_of_nonneg_right h12 ?_
    rw [FEET_TO_METERS]
    norm_num
  have key : ∀ (Gf : Graph) (f : ℚ) (rp : String → Option Point),
      build_precinct_adjacency_graph gdf geo f rp = some Gf →
      ∀ tr : Tier, tr ≠ Tier.bridge →
      Gf.edges.countP (fun e => e.tier == tr)
        = ((pairSeq gdf geo).filterMap
            (fun p => pairDecision gdf geo (f * FEET_TO_METERS)
              (200 * FEET_TO_METERS) p.1 p.2)).countP (fun e => e.tier == tr) := by
    intro Gf f rp hb tr htr
    obtain ⟨bs, hbs, htier⟩ : ∃ bs,
        Gf.edges = (classifierGraph gdf geo (f * FEET_TO_METERS)
          (200 * FEET_TO_METERS)).edges ++ bs ∧ ∀ e ∈ bs, e.tier = Tier.bridge := by
      rcases build_success_shape hb with heq | ⟨added, L2, hconn⟩
      · exact ⟨[], by rw [heq, List.append_nil], by simp⟩
      · exact connect_fresh (classifier_nodup gdf geo _ _) (classifier_wf gdf geo _ _) hconn
    rw [hbs, countP_append_bridge htier htr,
      @classifier_edges_eq gdf geo (f * FEET_TO_METERS) (200 * FEET_TO_METERS) hids hcand]
  have hmono : ∀ tr : Tier, tr ≠ Tier.bridge →
      ((pairSeq gdf geo).filterMap
        (fun p => pairDecision gdf geo (f2 * FEET_TO_METERS)
          (200 * FEET_TO_METERS) p.1 p.2)).countP (fun e => e.tier == tr)
      ≤ ((pairSeq gdf geo).filterMap
        (fun p => pairDecision gdf geo (f1 * FEET_TO_METERS)
          (200 * FEET_TO_METERS) p.1 p.2)).countP (fun e => e.tier == tr) := by
    intro tr htr
    refine countP_filterMap_mono _ _ _ ?_ (pairSeq gdf geo)
    intro q e hdec hp
    obtain ⟨e', hd', ht'⟩ := pairDecision_antitone hm hdec (beq_iff_eq.mp hp)
    exact ⟨e', hd', beq_iff_eq.mpr ht'⟩
  constructor
  · rw [strictCount, strictCount, key G2 f2 rep2 hb2 Tier.strict (by decide),
      key G1 f1 rep1 hb1 Tier.strict (by decide)]
    exact hmono Tier.strict (by decide)
  · rw [tolCount, tolCount, key G2 f2 rep2 hb2 Tier.tolerance (by decide),
      key G1 f1 rep1 hb1 Tier.tolerance (by decide)]
    exact hmono Tier.tolerance (by decide)

/-- Witness for C7 at a concrete input: raising the threshold from 200 ft
to 400 ft turns the single strict edge (shared length 100 m) into no
strict edge (a bridge restores connectivity instead). -/
theorem C7_threshold_monotonicity_witness :
    strictCount
        { nodes := ["A", "B"],
          edges := [{ a := "B", b := "A", tier := Tier.bridge, w := 9 }] }
      ≤ strictCount
        { nodes := ["A", "B"],
          edges := [{ a := "A", b := "B", tier := Tier.strict, w := 100 }] } ∧
    tolCount
        { nodes := ["A", "B"],
          edges := [{ a := "B", b := "A", tier := Tier.bridge, w := 9 }] }
      ≤ tolCount
        { nodes := ["A", "B"],
          edges := [{ a := "A", b := "B", tier := Tier.strict, w := 100 }] } :=
  @C7_threshold_monotonicity [{ id := "A" }, { id := "B" }]
    { intersects := fun i j => i == 0 && j == 1, boundLen := fun _ _ => 100,
      dist := fun _ _ => 0, tolLen := fun _ _ => 0,
      cand := fun k => if k == 0 then [1] else [] }
    200 400
    (fun s => if s = "A" then some ((0:ℤ), (0:ℤ))
      else if s = "B" then some (3, 0) else none)
    (fun s => if s = "A" then some ((0:ℤ), (0:ℤ))
      else if s = "B" then some (3, 0) else none)
    { nodes := ["A", "B"],
      edges := [{ a := "A", b := "B", tier := Tier.strict, w := 100 }] }
    { nodes := ["A", "B"],
      edges := [{ a := "B", b := "A", tier := Tier.bridge, w := 9 }] }
    (by decide) (by intro k; dsimp only; split <;> decide) (by norm_num)
    (by with_unfolding_all decide) (by with_unfolding_all decide)
